import Mathlib

/-!
Verification of the `arrowvortex_clipboard` Rust library (files `lib.rs`,
`decode.rs`, `encode.rs`) against its natural-language specification.

Modelling conventions:
* Machine bytes (`u8`) are `Nat`s; values produced by the code are `< 256` and
  side conditions state this where needed.  `u32`/`u64` are `Nat`s with
  explicit `% 2 ^ 32` / `% 2 ^ 64` where the Rust code can overflow.
* `f64` values are modelled by their IEEE-754 bit pattern (a `Nat < 2 ^ 64`).
  The library never performs float arithmetic: it only moves the 8 bytes of
  the pattern, so this is observation-equivalent; equality of patterns is the
  spec's "bit-for-bit" equality.  The `PartialOrd` comparison used by the
  sortedness check is modelled on patterns by `f64Pcmp` below.
* The Rust byte iterators are modelled by explicit `List Nat` state passing:
  each decoding function returns the value parsed together with the not yet
  consumed rest of the stream, or a `DecodeError`.
* The text sink (`core::fmt::Write`) is a `List Nat` of already written ASCII
  codes.  Writing to a `String` sink cannot fail, so the `Write` variant of
  `EncodeError` is never produced.
-/

set_option maxHeartbeats 1000000
set_option maxRecDepth 8000

/-- Equality of `Except` results is decidable (needed to state and evaluate
roundtrip checks). -/
instance {e a : Type} [DecidableEq e] [DecidableEq a] : DecidableEq (Except e a)
  | .error x, .error y =>
    if h : x = y then .isTrue (by rw [h]) else .isFalse (fun hc => by cases hc; exact h rfl)
  | .error _, .ok _ => .isFalse (fun hc => by cases hc)
  | .ok _, .error _ => .isFalse (fun hc => by cases hc)
  | .ok x, .ok y =>
    if h : x = y then .isTrue (by rw [h]) else .isFalse (fun hc => by cases hc; exact h rfl)

/-- ASCII codes of a string literal. -/
def strBytes (s : String) : List Nat := s.toList.map Char.toNat

/-- `NoteKind<P>` from `lib.rs`, with positions as 64-bit patterns. -/
inductive NoteKind where
  | Tap
  | Hold (end_pos : Nat)
  | Mine
  | Roll (end_pos : Nat)
  | Lift
  | Fake
deriving DecidableEq, Repr

/-- `Note<P>` from `lib.rs`. -/
structure Note where
  pos : Nat
  column : Nat
  kind : NoteKind
deriving DecidableEq, Repr

/-- `TempoEventKind` from `lib.rs`; `f64` fields are bit patterns. -/
inductive TempoEventKind where
  | Bpm (bpm : Nat)
  | Stop (time : Nat)
  | Delay (time : Nat)
  | Warp (num_skipped_rows : Nat)
  | TimeSignature (numerator denominator : Nat)
  | Ticks (num_ticks : Nat)
  | Combo (combo_multiplier miss_multiplier : Nat)
  | Speed (ratio delay : Nat) (delay_is_time : Bool)
  | Scroll (ratio : Nat)
  | FakeSegment (num_fake_rows : Nat)
  | Label (message : List Nat)
deriving DecidableEq, Repr

/-- `TempoEvent` from `lib.rs`. -/
structure TempoEvent where
  row : Nat
  kind : TempoEventKind
deriving DecidableEq, Repr

/-- `DecodeError` from `decode.rs`. -/
inductive DecodeError where
  | UnexpectedEof
  | MissingSignature
  | NonTrivial
  | UnknownNoteType (note_type : Nat)
  | UnknownTempoEventType (tempo_event_type : Nat)
deriving DecidableEq, Repr

/-- The five base85 digits of one group recombined into a `u32`
(the additions wrap in `u32` like the Rust arithmetic). -/
def b85dword (d0 d1 d2 d3 d4 : Nat) : Nat :=
  (85 ^ 4 * d0 + 85 ^ 3 * d1 + 85 ^ 2 * d2 + 85 * d3 + d4) % 2 ^ 32

/-- `u32::to_be_bytes`. -/
def u32beBytes (dword : Nat) : List Nat :=
  [dword / 2 ^ 24 % 256, dword / 2 ^ 16 % 256, dword / 2 ^ 8 % 256, dword % 256]

/-- `decode_dwords_from_base85` from `decode.rs`: each 5-character group is
turned into a big-endian `u32`, `z` abbreviates a zero group, and missing
trailing characters are treated as digit value 85. -/
def decode_dwords_from_base85 : List Nat → List Nat
  | [] => []
  | c :: rest =>
    if c = 122 then 0 :: 0 :: 0 :: 0 :: decode_dwords_from_base85 rest
    else
      match rest with
      | [] => u32beBytes (b85dword (c - 33) 85 85 85 85)
      | [b1] => u32beBytes (b85dword (c - 33) (b1 - 33) 85 85 85)
      | [b1, b2] => u32beBytes (b85dword (c - 33) (b1 - 33) (b2 - 33) 85 85)
      | [b1, b2, b3] => u32beBytes (b85dword (c - 33) (b1 - 33) (b2 - 33) (b3 - 33) 85)
      | b1 :: b2 :: b3 :: b4 :: rest4 =>
        u32beBytes (b85dword (c - 33) (b1 - 33) (b2 - 33) (b3 - 33) (b4 - 33))
          ++ decode_dwords_from_base85 rest4

/-- Loop body of `decode_varint` from `decode.rs` (`i` is the loop counter,
`result` the accumulator; the shifted digit is truncated to `u64`). -/
def decode_varint_go : List Nat → Nat → Nat → Except DecodeError (Nat × List Nat)
  | [], _, _ => .error .UnexpectedEof
  | byte :: rest, i, result =>
    let varint_digit := byte &&& 127
    let result := result ||| ((varint_digit <<< (7 * i)) % 2 ^ 64)
    if byte &&& 128 = 0 then .ok (result, rest)
    else decode_varint_go rest (i + 1) result

/-- `decode_varint` from `decode.rs`. -/
def decode_varint (data : List Nat) : Except DecodeError (Nat × List Nat) :=
  decode_varint_go data 0 0

/-- `decode_f64` from `decode.rs` (`f64::from_le_bytes`, as a bit pattern). -/
def decode_f64 (data : List Nat) : Except DecodeError (Nat × List Nat) :=
  match data with
  | b0 :: b1 :: b2 :: b3 :: b4 :: b5 :: b6 :: b7 :: rest =>
    .ok (b0 + 2 ^ 8 * b1 + 2 ^ 16 * b2 + 2 ^ 24 * b3 + 2 ^ 32 * b4 + 2 ^ 40 * b5
          + 2 ^ 48 * b6 + 2 ^ 56 * b7, rest)
  | _ => .error .UnexpectedEof

/-- `decode_u32` from `decode.rs` (`u32::from_le_bytes`). -/
def decode_u32 (data : List Nat) : Except DecodeError (Nat × List Nat) :=
  match data with
  | b0 :: b1 :: b2 :: b3 :: rest => .ok (b0 + 2 ^ 8 * b1 + 2 ^ 16 * b2 + 2 ^ 24 * b3, rest)
  | _ => .error .UnexpectedEof

/-- Per-note loop of `decode_notes` from `decode.rs`, counting down the
`size` read by the enclosing function. -/
def decode_notes_go (position_decode : List Nat → Except DecodeError (Nat × List Nat)) :
    Nat → List Nat → Except DecodeError (List Note × List Nat)
  | 0, data => .ok ([], data)
  | size + 1, data =>
    match data with
    | [] => .error .UnexpectedEof
    | first_byte :: data =>
      let column := first_byte &&& 127
      match position_decode data with
      | .error e => .error e
      | .ok (pos, data) =>
        if first_byte &&& 128 = 0 then
          match decode_notes_go position_decode size data with
          | .error e => .error e
          | .ok (notes, data) => .ok ({ pos, column, kind := .Tap } :: notes, data)
        else
          match position_decode data with
          | .error e => .error e
          | .ok (end_pos, data) =>
            match data with
            | [] => .error .UnexpectedEof
            | t :: data =>
              let kindRes : Except DecodeError NoteKind :=
                match t with
                | 0 => .ok (.Hold end_pos)
                | 1 => .ok .Mine
                | 2 => .ok (.Roll end_pos)
                | 3 => .ok .Lift
                | 4 => .ok .Fake
                | note_type => .error (.UnknownNoteType note_type)
              match kindRes with
              | .error e => .error e
              | .ok kind =>
                match decode_notes_go position_decode size data with
                | .error e => .error e
                | .ok (notes, data) => .ok ({ pos, column, kind } :: notes, data)

/-- `decode_notes` from `decode.rs`. -/
def decode_notes (position_decode : List Nat → Except DecodeError (Nat × List Nat))
    (data : List Nat) : Except DecodeError (List Note × List Nat) :=
  match decode_varint data with
  | .error e => .error e
  | .ok (size, data) => decode_notes_go position_decode size data

/-- Reading `n` raw bytes (the `message` loop of the `Label` arm in
`decode_single_tempo_event`). -/
def takeBytes : Nat → List Nat → Except DecodeError (List Nat × List Nat)
  | 0, data => .ok ([], data)
  | n + 1, data =>
    match data with
    | [] => .error .UnexpectedEof
    | b :: data =>
      match takeBytes n data with
      | .error e => .error e
      | .ok (message, data) => .ok (b :: message, data)

/-- `decode_single_tempo_event` from `decode.rs`.  The Rust function mutates
the shared byte iterator, so the model returns the remaining stream alongside
the result; an end-of-input failure leaves the iterator exhausted (`[]`). -/
def decode_single_tempo_event (kind : Nat) (data : List Nat) :
    Except DecodeError TempoEvent × List Nat :=
  match decode_u32 data with
  | .error e => (.error e, [])
  | .ok (pos, data) =>
    match kind with
    | 0 => match decode_f64 data with
           | .error e => (.error e, [])
           | .ok (bpm, data) => (.ok ⟨pos, .Bpm bpm⟩, data)
    | 1 => match decode_f64 data with
           | .error e => (.error e, [])
           | .ok (time, data) => (.ok ⟨pos, .Stop time⟩, data)
    | 2 => match decode_f64 data with
           | .error e => (.error e, [])
           | .ok (time, data) => (.ok ⟨pos, .Delay time⟩, data)
    | 3 => match decode_u32 data with
           | .error e => (.error e, [])
           | .ok (n, data) => (.ok ⟨pos, .Warp n⟩, data)
    | 4 => match decode_u32 data with
           | .error e => (.error e, [])
           | .ok (numerator, data) =>
             match decode_u32 data with
             | .error e => (.error e, [])
             | .ok (denominator, data) => (.ok ⟨pos, .TimeSignature numerator denominator⟩, data)
    | 5 => match decode_u32 data with
           | .error e => (.error e, [])
           | .ok (n, data) => (.ok ⟨pos, .Ticks n⟩, data)
    | 6 => match decode_u32 data with
           | .error e => (.error e, [])
           | .ok (c, data) =>
             match decode_u32 data with
             | .error e => (.error e, [])
             | .ok (m, data) => (.ok ⟨pos, .Combo c m⟩, data)
    | 7 => match decode_f64 data with
           | .error e => (.error e, [])
           | .ok (ratio, data) =>
             match decode_f64 data with
             | .error e => (.error e, [])
             | .ok (delay, data) =>
               match decode_u32 data with
               | .error e => (.error e, [])
               | .ok (b, data) => (.ok ⟨pos, .Speed ratio delay (b != 0)⟩, data)
    | 8 => match decode_f64 data with
           | .error e => (.error e, [])
           | .ok (ratio, data) => (.ok ⟨pos, .Scroll ratio⟩, data)
    | 9 => match decode_u32 data with
           | .error e => (.error e, [])
           | .ok (n, data) => (.ok ⟨pos, .FakeSegment n⟩, data)
    | 10 => match decode_varint data with
            | .error e => (.error e, [])
            | .ok (message_len, data) =>
              match takeBytes message_len data with
              | .error e => (.error e, [])
              | .ok (message, data) => (.ok ⟨pos, .Label message⟩, data)
    | other => (.error (.UnknownTempoEventType other), data)

theorem decode_varint_go_length {data : List Nat} {i acc v : Nat} {rest : List Nat}
    (h : decode_varint_go data i acc = .ok (v, rest)) : rest.length < data.length := by
  induction data generalizing i acc with
  | nil => simp [decode_varint_go] at h
  | cons b tl ih =>
    simp only [decode_varint_go] at h
    split at h
    · cases h; simp
    · exact Nat.lt_trans (ih h) (by simp)

theorem decode_varint_length {data : List Nat} {v : Nat} {rest : List Nat}
    (h : decode_varint data = .ok (v, rest)) : rest.length < data.length :=
  decode_varint_go_length h

theorem decode_u32_length {data : List Nat} {v : Nat} {rest : List Nat}
    (h : decode_u32 data = .ok (v, rest)) : rest.length + 4 = data.length := by
  unfold decode_u32 at h
  split at h <;> simp_all

theorem decode_f64_length {data : List Nat} {v : Nat} {rest : List Nat}
    (h : decode_f64 data = .ok (v, rest)) : rest.length + 8 = data.length := by
  unfold decode_f64 at h
  split at h <;> simp_all

theorem takeBytes_length {n : Nat} {data : List Nat} {v rest : List Nat}
    (h : takeBytes n data = .ok (v, rest)) : rest.length ≤ data.length := by
  induction n generalizing data v with
  | zero => simp only [takeBytes] at h; cases h; exact Nat.le_refl _
  | succ n ih =>
    simp only [takeBytes] at h
    match data, h with
    | b :: data, h =>
      simp only at h
      match htb : takeBytes n data with
      | .error e => rw [htb] at h; cases h
      | .ok (msg, rest') =>
        rw [htb] at h; cases h
        exact Nat.le_trans (ih htb) (by simp)

theorem decode_single_tempo_event_length {kind : Nat} {data : List Nat} {ev : TempoEvent}
    {rest : List Nat} (h : decode_single_tempo_event kind data = (.ok ev, rest)) :
    rest.length < data.length := by
  unfold decode_single_tempo_event at h
  split at h
  · simp at h
  · rename_i pos data1 hu
    have h4 := decode_u32_length hu
    split at h
    · -- Bpm
      split at h
      · simp at h
      · rename_i bpm data2 hf; cases h; have := decode_f64_length hf; omega
    · -- Stop
      split at h
      · simp at h
      · rename_i t data2 hf; cases h; have := decode_f64_length hf; omega
    · -- Delay
      split at h
      · simp at h
      · rename_i t data2 hf; cases h; have := decode_f64_length hf; omega
    · -- Warp
      split at h
      · simp at h
      · rename_i n data2 hf; cases h; have := decode_u32_length hf; omega
    · -- TimeSignature
      split at h
      · simp at h
      · rename_i n data2 hf
        split at h
        · simp at h
        · rename_i m data3 hg; cases h
          have := decode_u32_length hf; have := decode_u32_length hg; omega
    · -- Ticks
      split at h
      · simp at h
      · rename_i n data2 hf; cases h; have := decode_u32_length hf; omega
    · -- Combo
      split at h
      · simp at h
      · rename_i n data2 hf
        split at h
        · simp at h
        · rename_i m data3 hg; cases h
          have := decode_u32_length hf; have := decode_u32_length hg; omega
    · -- Speed
      split at h
      · simp at h
      · rename_i x data2 hf
        split at h
        · simp at h
        · rename_i y data3 hg
          split at h
          · simp at h
          · rename_i b data4 hb; cases h
            have := decode_f64_length hf; have := decode_f64_length hg
            have := decode_u32_length hb; omega
    · -- Scroll
      split at h
      · simp at h
      · rename_i x data2 hf; cases h; have := decode_f64_length hf; omega
    · -- FakeSegment
      split at h
      · simp at h
      · rename_i n data2 hf; cases h; have := decode_u32_length hf; omega
    · -- Label
      split at h
      · simp at h
      · rename_i len data2 hv
        split at h
        · simp at h
        · rename_i msg data3 ht; cases h
          have := decode_varint_length hv; have := takeBytes_length ht; omega
    · -- unknown kind
      simp at h

/-- The `core::iter::from_fn` loop of `decode_tempo` from `decode.rs`,
together with the terminal `.collect()`.  `count` is the remaining length of
the current run and `kindOpt` the memoized kind byte of the run (`None` right
after a run-length has been read).  As in the Rust code, when the last event
of a run has been processed the next run length is read immediately, and a
failure of that read takes precedence over a failure of the event itself. -/
def decode_tempo_go (count : Nat) (kindOpt : Option Nat) (data : List Nat) :
    Except DecodeError (List TempoEvent) :=
  if count = 0 then .ok []
  else
    match kindOpt, data with
    | none, [] => .error .UnexpectedEof
    | none, kind :: data' =>
      match hev : decode_single_tempo_event kind data' with
      | (event, data2) =>
        if count - 1 = 0 then
          match hv : decode_varint data2 with
          | .error e => .error e
          | .ok (count', data3) =>
            match event with
            | .error e => .error e
            | .ok ev =>
              match decode_tempo_go count' none data3 with
              | .error e => .error e
              | .ok events => .ok (ev :: events)
        else
          match event with
          | .error e => .error e
          | .ok ev =>
            match decode_tempo_go (count - 1) (some kind) data2 with
            | .error e => .error e
            | .ok events => .ok (ev :: events)
    | some kind, data' =>
      match hev : decode_single_tempo_event kind data' with
      | (event, data2) =>
        if count - 1 = 0 then
          match hv : decode_varint data2 with
          | .error e => .error e
          | .ok (count', data3) =>
            match event with
            | .error e => .error e
            | .ok ev =>
              match decode_tempo_go count' none data3 with
              | .error e => .error e
              | .ok events => .ok (ev :: events)
        else
          match event with
          | .error e => .error e
          | .ok ev =>
            match decode_tempo_go (count - 1) (some kind) data2 with
            | .error e => .error e
            | .ok events => .ok (ev :: events)
termination_by data.length
decreasing_by
  · have h1 := decode_single_tempo_event_length hev
    have h2 := decode_varint_length hv
    simp only [List.length_cons]
    omega
  · have h1 := decode_single_tempo_event_length hev
    simp only [List.length_cons]
    omega
  · have h1 := decode_single_tempo_event_length hev
    have h2 := decode_varint_length hv
    omega
  · exact decode_single_tempo_event_length hev

/-- `decode_tempo` from `decode.rs`. -/
def decode_tempo (data : List Nat) : Except DecodeError (List TempoEvent) :=
  match decode_varint data with
  | .error e => .error e
  | .ok (count, data) => decode_tempo_go count none data

/-- `DecodeResult` from `decode.rs` (decoded eagerly into lists; the Rust
iterators are drained by `collect` in the library itself). -/
inductive DecodeResult where
  | RowBasedNotes (notes : List Note)
  | TimeBasedNotes (notes : List Note)
  | TempoEvents (events : List TempoEvent)
deriving DecidableEq, Repr

/-- `<[u8]>::strip_prefix`, used by `decode` for the two signatures. -/
def stripSignature : List Nat → List Nat → Option (List Nat)
  | [], data => some data
  | _ :: _, [] => none
  | s :: sig, d :: data => if d = s then stripSignature sig data else none

/-- The `"ArrowVortex:notes:"` signature. -/
def notesSig : List Nat := strBytes "ArrowVortex:notes:"

/-- The `"ArrowVortex:tempo:"` signature. -/
def tempoSig : List Nat := strBytes "ArrowVortex:tempo:"

/-- `decode` from `decode.rs`. -/
def decode (data : List Nat) : Except DecodeError DecodeResult :=
  match stripSignature notesSig data with
  | some body =>
    (match decode_dwords_from_base85 body with
     | [] => .error .UnexpectedEof
     | is_time_based :: rest =>
       if is_time_based ≠ 0 then
         match decode_notes decode_f64 rest with
         | .error e => .error e
         | .ok (notes, _) => .ok (.TimeBasedNotes notes)
       else
         match decode_notes decode_varint rest with
         | .error e => .error e
         | .ok (notes, _) => .ok (.RowBasedNotes notes))
  | none =>
    match stripSignature tempoSig data with
    | some body =>
      (match decode_tempo (decode_dwords_from_base85 body) with
       | .error e => .error e
       | .ok events => .ok (.TempoEvents events))
    | none => .error .MissingSignature

/-- `EncodeError` from `encode.rs`.  A `String` sink never fails, so the
`Write` variant is never produced by the model. -/
inductive EncodeError where
  | Write
  | NotSorted
deriving DecidableEq, Repr

/-- `Base85Encoder` from `encode.rs`: a byte buffer of fill `< 4` (between
calls) and the text sink written so far. -/
structure Base85Encoder where
  buffer : List Nat
  writer : List Nat
deriving DecidableEq, Repr

/-- Big-endian `u32` of a 4-byte buffer (`u32::from_be_bytes`). -/
def beDword : List Nat → Nat
  | [b0, b1, b2, b3] => 2 ^ 24 * b0 + 2 ^ 16 * b1 + 2 ^ 8 * b2 + b3
  | _ => 0

/-- `Base85Encoder::flush_buffer` from `encode.rs`: zero-pad the buffer,
compute the five base85 digit characters, emit `1 + fill` of them, with the
all-zero full group abbreviated as `z`. -/
def Base85Encoder.flush_buffer (self : Base85Encoder) : Base85Encoder :=
  if self.buffer.length = 0 then self
  else
    let dword := beDword (self.buffer ++ List.replicate (4 - self.buffer.length) 0)
    let chars := [33 + dword / 85 ^ 4 % 85, 33 + dword / 85 ^ 3 % 85,
                  33 + dword / 85 ^ 2 % 85, 33 + dword / 85 % 85, 33 + dword % 85]
    let chars := chars.take (1 + self.buffer.length)
    { buffer := [],
      writer := self.writer ++ if chars = [33, 33, 33, 33, 33] then [122] else chars }

/-- `Base85Encoder::write` from `encode.rs`. -/
def Base85Encoder.write (self : Base85Encoder) (byte : Nat) : Base85Encoder :=
  let self' : Base85Encoder := { self with buffer := self.buffer ++ [byte] }
  if self'.buffer.length = 4 then self'.flush_buffer else self'

/-- `encode_varint` from `encode.rs`. -/
def encode_varint (writer : Base85Encoder) (n : Nat) : Base85Encoder :=
  let byte := n &&& 127
  if n >>> 7 > 0 then encode_varint (writer.write (byte ||| 128)) (n >>> 7)
  else writer.write byte
termination_by n
decreasing_by
  rename_i h
  rw [Nat.shiftRight_eq_div_pow] at *
  omega

/-- `f64::to_le_bytes` of a bit pattern. -/
def u64leBytes (n : Nat) : List Nat :=
  [n % 256, n / 2 ^ 8 % 256, n / 2 ^ 16 % 256, n / 2 ^ 24 % 256,
   n / 2 ^ 32 % 256, n / 2 ^ 40 % 256, n / 2 ^ 48 % 256, n / 2 ^ 56 % 256]

/-- `u32::to_le_bytes`. -/
def u32leBytes (n : Nat) : List Nat :=
  [n % 256, n / 2 ^ 8 % 256, n / 2 ^ 16 % 256, n / 2 ^ 24 % 256]

/-- `encode_f64` from `encode.rs` (writes the 8 little-endian pattern bytes). -/
def encode_f64 (writer : Base85Encoder) (n : Nat) : Base85Encoder :=
  (u64leBytes n).foldl Base85Encoder.write writer

/-- `encode_u32` from `encode.rs`. -/
def encode_u32 (writer : Base85Encoder) (n : Nat) : Base85Encoder :=
  (u32leBytes n).foldl Base85Encoder.write writer

/-- Rust tuple `(P, u8)::le` built from `P::partial_cmp` (tuple
lexicographic `PartialOrd`): true exactly when `partial_cmp` returns
`Some(Less)` or `Some(Equal)` on the pair. -/
def pairLe (pcmp : Nat → Nat → Option Ordering) (a b : Nat × Nat) : Bool :=
  match pcmp a.1 b.1 with
  | some .lt => true
  | some .eq => decide (a.2 ≤ b.2)
  | _ => false

/-- The `notes.windows(2).all(...)` sortedness check of `encode_notes`. -/
def notesSorted (pcmp : Nat → Nat → Option Ordering) : List Note → Bool
  | a :: b :: rest =>
    pairLe pcmp (a.pos, a.column) (b.pos, b.column) && notesSorted pcmp (b :: rest)
  | _ => true

/-- `u64::partial_cmp` (total). -/
def natPcmp (a b : Nat) : Option Ordering := some (compare a b)

/-- NaN test on an `f64` bit pattern (exponent all ones, mantissa nonzero). -/
def f64IsNan (x : Nat) : Bool := decide (x / 2 ^ 52 % 2 ^ 11 = 2047) && decide (x % 2 ^ 52 ≠ 0)

/-- Order key of a non-NaN `f64` bit pattern: magnitude negated for negative
sign, so that key order coincides with IEEE-754 value order (and `-0 = +0`). -/
def f64Val (x : Nat) : Int :=
  if x / 2 ^ 63 % 2 = 1 then -((x % 2 ^ 63 : Nat) : Int) else ((x % 2 ^ 63 : Nat) : Int)

/-- `f64::partial_cmp` on bit patterns: `None` when either side is NaN. -/
def f64Pcmp (x y : Nat) : Option Ordering :=
  if f64IsNan x || f64IsNan y then none else some (compare (f64Val x) (f64Val y))

/-- The per-note body of the `for` loop in `encode_notes` from `encode.rs`:
first the column byte and position(s), then the type byte.  Mine/Lift/Fake
write the start position twice.  (The parameter is called `position_decode`
in the Rust source even though it encodes.) -/
def encode_note (position_decode : Base85Encoder → Nat → Base85Encoder)
    (writer : Base85Encoder) (note : Note) : Base85Encoder :=
  let writer :=
    match note.kind with
    | .Tap => position_decode (writer.write (note.column &&& 127)) note.pos
    | .Hold end_pos | .Roll end_pos =>
      position_decode (position_decode (writer.write (note.column ||| 128)) note.pos) end_pos
    | .Mine | .Lift | .Fake =>
      position_decode (position_decode (writer.write (note.column ||| 128)) note.pos) note.pos
  match note.kind with
  | .Tap => writer
  | .Hold _ => writer.write 0
  | .Mine => writer.write 1
  | .Roll _ => writer.write 2
  | .Lift => writer.write 3
  | .Fake => writer.write 4

/-- `encode_notes` from `encode.rs`.  `writer` is the sink contents so far;
the result is the Rust return value together with the final sink contents
(unchanged when `NotSorted` is returned before anything is written). -/
def encode_notes (pcmp : Nat → Nat → Option Ordering)
    (position_decode : Base85Encoder → Nat → Base85Encoder)
    (writer : List Nat) (notes : List Note) (time_based : Bool) :
    Except EncodeError Unit × List Nat :=
  if ¬ notesSorted pcmp notes then (.error .NotSorted, writer)
  else
    let w : Base85Encoder := ⟨[], writer ++ notesSig⟩
    let w := w.write (if time_based then 1 else 0)
    let w := encode_varint w notes.length
    let w := notes.foldl (encode_note position_decode) w
    let w := w.flush_buffer
    (.ok (), w.writer)

/-- `encode_row_based_notes` from `encode.rs`. -/
def encode_row_based_notes (writer : List Nat) (notes : List Note) :
    Except EncodeError Unit × List Nat :=
  encode_notes natPcmp encode_varint writer notes false

/-- `encode_time_based_notes` from `encode.rs`. -/
def encode_time_based_notes (writer : List Nat) (notes : List Note) :
    Except EncodeError Unit × List Nat :=
  encode_notes f64Pcmp encode_f64 writer notes true

/-- `tempo_event_kind` from `encode.rs` (the discriminant byte). -/
def tempo_event_kind : TempoEventKind → Nat
  | .Bpm _ => 0
  | .Stop _ => 1
  | .Delay _ => 2
  | .Warp _ => 3
  | .TimeSignature _ _ => 4
  | .Ticks _ => 5
  | .Combo _ _ => 6
  | .Speed _ _ _ => 7
  | .Scroll _ => 8
  | .FakeSegment _ => 9
  | .Label _ => 10

/-- The `windows(2).all(...)` check of `encode_tempo`: non-decreasing by
`(kind-discriminant, row)` (both orders total, so tuple `le` is plain
lexicographic order). -/
def tempoSorted : List TempoEvent → Bool
  | a :: b :: rest =>
    (decide (tempo_event_kind a.kind < tempo_event_kind b.kind) ||
      (decide (tempo_event_kind a.kind = tempo_event_kind b.kind) && decide (a.row ≤ b.row)))
      && tempoSorted (b :: rest)
  | _ => true

/-- `group_by` from `encode.rs`: stable partition of a slice into maximal
runs of consecutive elements with equal key. -/
def group_by (key : TempoEvent → Nat) : List TempoEvent → List (Nat × List TempoEvent)
  | [] => []
  | x :: rest =>
    let group_key := key x
    (group_key, x :: rest.takeWhile (fun y => key y == group_key)) ::
      group_by key (rest.dropWhile (fun y => key y == group_key))
termination_by l => l.length
decreasing_by
  have := (List.dropWhile_sublist (l := rest) (fun y => key y == key x)).length_le
  simp only [List.length_cons]
  omega

/-- `encode_single_tempo_event` from `encode.rs`. -/
def encode_single_tempo_event (writer : Base85Encoder) (event : TempoEvent) : Base85Encoder :=
  let writer := encode_u32 writer event.row
  match event.kind with
  | .Bpm bpm => encode_f64 writer bpm
  | .Stop time => encode_f64 writer time
  | .Delay time => encode_f64 writer time
  | .Warp num_skipped_rows => encode_u32 writer num_skipped_rows
  | .TimeSignature numerator denominator => encode_u32 (encode_u32 writer numerator) denominator
  | .Ticks num_ticks => encode_u32 writer num_ticks
  | .Combo c m => encode_u32 (encode_u32 writer c) m
  | .Speed ratio delay delay_is_time =>
    encode_u32 (encode_f64 (encode_f64 writer ratio) delay) (if delay_is_time then 1 else 0)
  | .Scroll ratio => encode_f64 writer ratio
  | .FakeSegment num_fake_rows => encode_u32 writer num_fake_rows
  | .Label message => message.foldl Base85Encoder.write (encode_varint writer message.length)

/-- `encode_tempo` from `encode.rs`. -/
def encode_tempo (writer : List Nat) (tempo_events : List TempoEvent) :
    Except EncodeError Unit × List Nat :=
  if ¬ tempoSorted tempo_events then (.error .NotSorted, writer)
  else
    let w : Base85Encoder := ⟨[], writer ++ tempoSig⟩
    let w := (group_by (fun ev => tempo_event_kind ev.kind) tempo_events).foldl
      (fun w kg =>
        let w := encode_varint w kg.2.length
        let w := w.write kg.1
        kg.2.foldl encode_single_tempo_event w) w
    let w := encode_varint w 0
    let w := w.flush_buffer
    (.ok (), w.writer)

/-! ### Arithmetic helpers for bytes and masks -/

theorem and_127_eq (x : Nat) : x &&& 127 = x % 128 := by
  have h := Nat.and_pow_two_sub_one_eq_mod x 7
  norm_num at h
  exact h

theorem and_128_eq (x : Nat) : x &&& 128 = x / 128 % 2 * 128 := by
  have h : (128 : Nat) = 2 ^ 7 := by norm_num
  rw [h, Nat.and_two_pow, Nat.testBit_to_div_mod]
  norm_num
  rcases Nat.mod_two_eq_zero_or_one (x / 128) with h2 | h2 <;> simp [h2]

theorem lor_128_eq (x : Nat) (hx : x < 128) : x ||| 128 = 128 + x := by
  have h : (2 : Nat) ^ 7 * 1 + x = 2 ^ 7 * 1 ||| x := Nat.mul_add_lt_is_or (by omega) 1
  rw [Nat.lor_comm]
  norm_num at h ⊢
  omega

theorem lor_shift_eq_add {acc d k : Nat} (hacc : acc < 2 ^ k) :
    acc ||| d * 2 ^ k = d * 2 ^ k + acc := by
  have h := Nat.mul_add_lt_is_or (i := k) hacc d
  rw [Nat.lor_comm, Nat.mul_comm] at h
  omega

/-! ### Derived byte sequences and bridging lemmas

The streaming encoder is characterized as folding byte lists through
`Base85Encoder.write`; `varint_bytes`/`note_bytes`/... name the byte
sequences each structured encoder feeds to the base85 layer. -/

/-- Feeding a byte list to the base85 encoder one byte at a time. -/
def writeBytes (writer : Base85Encoder) (bs : List Nat) : Base85Encoder :=
  bs.foldl Base85Encoder.write writer

/-- The LEB128 byte sequence written by `encode_varint`. -/
def varint_bytes (n : Nat) : List Nat :=
  if n >>> 7 > 0 then ((n &&& 127) ||| 128) :: varint_bytes (n >>> 7) else [n &&& 127]
termination_by n
decreasing_by
  rename_i h
  rw [Nat.shiftRight_eq_div_pow] at *
  omega

theorem writeBytes_append (w : Base85Encoder) (a b : List Nat) :
    writeBytes w (a ++ b) = writeBytes (writeBytes w a) b := by
  simp [writeBytes]

theorem writeBytes_cons (w : Base85Encoder) (b : Nat) (bs : List Nat) :
    writeBytes w (b :: bs) = writeBytes (w.write b) bs := rfl

theorem encode_varint_eq_writeBytes (n : Nat) (w : Base85Encoder) :
    encode_varint w n = writeBytes w (varint_bytes n) := by
  induction n using Nat.strong_induction_on generalizing w with
  | _ n ih =>
    rw [encode_varint, varint_bytes]
    split
    · rename_i h
      rw [Nat.shiftRight_eq_div_pow] at h
      rw [ih (n >>> 7) (by rw [Nat.shiftRight_eq_div_pow]; omega)]
      rfl
    · rfl

theorem encode_f64_eq_writeBytes (n : Nat) (w : Base85Encoder) :
    encode_f64 w n = writeBytes w (u64leBytes n) := rfl

theorem encode_u32_eq_writeBytes (n : Nat) (w : Base85Encoder) :
    encode_u32 w n = writeBytes w (u32leBytes n) := rfl

theorem varint_bytes_lt_256 (n : Nat) : ∀ b ∈ varint_bytes n, b < 256 := by
  induction n using Nat.strong_induction_on with
  | _ n ih =>
    rw [varint_bytes]
    split
    · rename_i h
      rw [Nat.shiftRight_eq_div_pow] at h
      intro b hb
      rcases List.mem_cons.mp hb with hb | hb
      · subst hb
        rw [and_127_eq, lor_128_eq _ (Nat.mod_lt _ (by norm_num))]
        omega
      · exact ih (n >>> 7) (by rw [Nat.shiftRight_eq_div_pow]; omega) b hb
    · intro b hb
      rcases List.mem_singleton.mp hb with rfl
      rw [and_127_eq]
      omega

theorem varint_bytes_zero : varint_bytes 0 = [0] := by
  rw [varint_bytes]
  norm_num

theorem decode_varint_go_spec (n : Nat) : ∀ (i acc : Nat) (rest : List Nat),
    n * 2 ^ (7 * i) < 2 ^ 64 → acc < 2 ^ (7 * i) →
    decode_varint_go (varint_bytes n ++ rest) i acc = .ok (acc + n * 2 ^ (7 * i), rest) := by
  induction n using Nat.strong_induction_on with
  | _ n ih =>
    intro i acc rest hn hacc
    have hm : n % 128 < 128 := Nat.mod_lt _ (by norm_num)
    have e1 : n &&& 127 = n % 128 := and_127_eq n
    rw [varint_bytes]
    split
    · rename_i h
      rw [Nat.shiftRight_eq_div_pow] at h
      norm_num at h
      simp only [List.cons_append, decode_varint_go]
      rw [e1, lor_128_eq _ hm]
      have hb127 : (128 + n % 128) &&& 127 = n % 128 := by rw [and_127_eq]; omega
      have hb128 : (128 + n % 128) &&& 128 = 128 := by
        rw [and_128_eq]
        have h1 : (128 + n % 128) / 128 = 1 := by omega
        rw [h1]
      rw [hb127, hb128, if_neg (by norm_num)]
      have hdig : (n % 128) <<< (7 * i) % 2 ^ 64 = n % 128 * 2 ^ (7 * i) := by
        rw [Nat.shiftLeft_eq]
        exact Nat.mod_eq_of_lt
          (Nat.lt_of_le_of_lt (Nat.mul_le_mul_right _ (Nat.mod_le _ _)) hn)
      rw [hdig, lor_shift_eq_add hacc]
      have h1 : 7 * (i + 1) = 7 * i + 7 := by ring
      have hp : (2 : Nat) ^ (7 * (i + 1)) = 2 ^ (7 * i) * 128 := by
        rw [h1, Nat.pow_add]
      have hd7 : n >>> 7 = n / 128 := by
        rw [Nat.shiftRight_eq_div_pow]
      have hrec := ih (n >>> 7) (by rw [Nat.shiftRight_eq_div_pow]; omega) (i + 1)
        (n % 128 * 2 ^ (7 * i) + acc) rest
        (by rw [hd7, hp]; nlinarith [Nat.div_mul_le_self n 128])
        (by rw [hp]; nlinarith [Nat.mod_lt n (show 0 < 128 by norm_num)])
      simp only [List.append_eq] at hrec ⊢
      rw [hrec]
      have hv : n % 128 * 2 ^ (7 * i) + acc + n >>> 7 * 2 ^ (7 * (i + 1))
          = acc + n * 2 ^ (7 * i) := by
        rw [hd7, hp]
        nlinarith [Nat.div_add_mod n 128]
      rw [hv]
    · rename_i h
      rw [Nat.shiftRight_eq_div_pow] at h
      norm_num at h
      have hn128 : n < 128 := by omega
      simp only [List.cons_append, decode_varint_go]
      have hbA : (n &&& 127) &&& 127 = n := by rw [e1, and_127_eq]; omega
      have hbB : (n &&& 127) &&& 128 = 0 := by rw [e1, and_128_eq]; omega
      rw [hbA, hbB, if_pos rfl]
      have hdig : n <<< (7 * i) % 2 ^ 64 = n * 2 ^ (7 * i) := by
        rw [Nat.shiftLeft_eq]
        exact Nat.mod_eq_of_lt hn
      rw [hdig, lor_shift_eq_add hacc, Nat.add_comm]
      simp

/-- Varint roundtrip at the byte level. -/
theorem decode_varint_bytes (n : Nat) (rest : List Nat) (hn : n < 2 ^ 64) :
    decode_varint (varint_bytes n ++ rest) = .ok (n, rest) := by
  have h := decode_varint_go_spec n 0 0 rest (by norm_num; omega) (by norm_num)
  simpa [decode_varint] using h

/-! ### Base85 layer: the streamed encoder versus `decode_dwords_from_base85` -/

/-- The characters emitted for one full 4-byte group. -/
def b85chunk (b0 b1 b2 b3 : Nat) : List Nat :=
  let dword := 2 ^ 24 * b0 + 2 ^ 16 * b1 + 2 ^ 8 * b2 + b3
  if dword = 0 then [122]
  else [33 + dword / 85 ^ 4 % 85, 33 + dword / 85 ^ 3 % 85,
        33 + dword / 85 ^ 2 % 85, 33 + dword / 85 % 85, 33 + dword % 85]

theorem flush_buffer_shift (buf out : List Nat) :
    Base85Encoder.flush_buffer ⟨buf, out⟩ =
      ⟨(Base85Encoder.flush_buffer ⟨buf, []⟩).buffer,
        out ++ (Base85Encoder.flush_buffer ⟨buf, []⟩).writer⟩ := by
  unfold Base85Encoder.flush_buffer
  by_cases h : buf.length = 0 <;> simp [h]

theorem write_shift (buf out : List Nat) (b : Nat) :
    Base85Encoder.write ⟨buf, out⟩ b =
      ⟨(Base85Encoder.write ⟨buf, []⟩ b).buffer,
        out ++ (Base85Encoder.write ⟨buf, []⟩ b).writer⟩ := by
  unfold Base85Encoder.write
  dsimp only
  by_cases h : (buf ++ [b]).length = 4
  · rw [if_pos h, if_pos h]
    exact flush_buffer_shift _ _
  · rw [if_neg h, if_neg h]
    simp

theorem flush_buffer_four (b0 b1 b2 b3 : Nat) (out : List Nat)
    (h0 : b0 < 256) (h1 : b1 < 256) (h2 : b2 < 256) (h3 : b3 < 256) :
    Base85Encoder.flush_buffer ⟨[b0, b1, b2, b3], out⟩ = ⟨[], out ++ b85chunk b0 b1 b2 b3⟩ := by
  unfold Base85Encoder.flush_buffer b85chunk
  rw [if_neg (by simp)]
  dsimp only
  norm_num
  simp only [beDword]
  norm_num
  apply if_congr _ rfl rfl
  constructor
  · rintro ⟨e0, e1, e2, e3, e4⟩
    have hlt : 16777216 * b0 + 65536 * b1 + 256 * b2 + b3 < 4294967296 := by omega
    have q0 : (16777216 * b0 + 65536 * b1 + 256 * b2 + b3) / 52200625 = 0 := by omega
    have q1 : (16777216 * b0 + 65536 * b1 + 256 * b2 + b3) / 614125 = 0 := by omega
    have q2 : (16777216 * b0 + 65536 * b1 + 256 * b2 + b3) / 7225 = 0 := by omega
    have q3 : (16777216 * b0 + 65536 * b1 + 256 * b2 + b3) / 85 = 0 := by omega
    omega
  · rintro ⟨⟨⟨z0, z1⟩, z2⟩, z3⟩
    subst z0; subst z1; subst z2; subst z3
    norm_num




theorem writeBytes_shift (bs : List Nat) (buf out : List Nat) :
    writeBytes ⟨buf, out⟩ bs =
      ⟨(writeBytes ⟨buf, []⟩ bs).buffer, out ++ (writeBytes ⟨buf, []⟩ bs).writer⟩ := by
  induction bs generalizing buf out with
  | nil => simp [writeBytes]
  | cons b bs ih =>
    rw [writeBytes_cons, writeBytes_cons, write_shift]
    rcases hw : Base85Encoder.write ⟨buf, []⟩ b with ⟨buf2, w2⟩
    rw [ih buf2 (out ++ w2), ih buf2 w2]
    simp

theorem writeBytes4 (b0 b1 b2 b3 : Nat) (out : List Nat) :
    writeBytes ⟨[], out⟩ [b0, b1, b2, b3] = Base85Encoder.flush_buffer ⟨[b0, b1, b2, b3], out⟩ := by
  simp [writeBytes, Base85Encoder.write]

theorem b85_digits_recompose (D : Nat) (hD : D < 4294967296) :
    b85dword (D / 52200625 % 85) (D / 614125 % 85) (D / 7225 % 85) (D / 85 % 85) (D % 85) = D := by
  unfold b85dword
  have e1 : D / 614125 / 85 = D / 52200625 := by
    rw [Nat.div_div_eq_div_mul]
  have e2 : D / 7225 / 85 = D / 614125 := by
    rw [Nat.div_div_eq_div_mul]
  have e3 : D / 85 / 85 = D / 7225 := by
    rw [Nat.div_div_eq_div_mul]
  have d0 : D / 52200625 % 85 = D / 52200625 := Nat.mod_eq_of_lt (by omega)
  have d1 : 614125 * (D / 614125 % 85) = 614125 * (D / 614125) - 52200625 * (D / 52200625) := by
    omega
  have d2 : 7225 * (D / 7225 % 85) = 7225 * (D / 7225) - 614125 * (D / 614125) := by omega
  have d3 : 85 * (D / 85 % 85) = 85 * (D / 85) - 7225 * (D / 7225) := by omega
  norm_num
  omega

theorem decode_dwords_z (rest : List Nat) :
    decode_dwords_from_base85 (122 :: rest) = 0 :: 0 :: 0 :: 0 :: decode_dwords_from_base85 rest := by
  match rest with
  | [] => simp [decode_dwords_from_base85]
  | [a] => simp [decode_dwords_from_base85]
  | [a, b] => simp [decode_dwords_from_base85]
  | [a, b, c] => simp [decode_dwords_from_base85]
  | a :: b :: c :: d :: t => simp [decode_dwords_from_base85]

theorem decode_b85chunk (b0 b1 b2 b3 : Nat) (rest : List Nat)
    (h0 : b0 < 256) (h1 : b1 < 256) (h2 : b2 < 256) (h3 : b3 < 256) :
    decode_dwords_from_base85 (b85chunk b0 b1 b2 b3 ++ rest) =
      b0 :: b1 :: b2 :: b3 :: decode_dwords_from_base85 rest := by
  unfold b85chunk
  by_cases hz : 2 ^ 24 * b0 + 2 ^ 16 * b1 + 2 ^ 8 * b2 + b3 = 0
  · rw [if_pos hz]
    have hb0 : b0 = 0 := by omega
    have hb1 : b1 = 0 := by omega
    have hb2 : b2 = 0 := by omega
    have hb3 : b3 = 0 := by omega
    subst hb0; subst hb1; subst hb2; subst hb3
    rw [List.cons_append]
    simp only [List.nil_append]
    exact decode_dwords_z rest
  · rw [if_neg hz]
    simp only [List.cons_append]
    conv_lhs => rw [decode_dwords_from_base85]
    have hc0 : ¬ (33 + (2 ^ 24 * b0 + 2 ^ 16 * b1 + 2 ^ 8 * b2 + b3) / 85 ^ 4 % 85 = 122) := by
      omega
    rw [if_neg hc0]
    have hsub : ∀ x : Nat, 33 + x - 33 = x := fun x => by omega
    rw [hsub, hsub, hsub, hsub, hsub]
    norm_num
    rw [b85_digits_recompose (16777216 * b0 + 65536 * b1 + 256 * b2 + b3) (by omega)]
    have hbytes : u32beBytes (16777216 * b0 + 65536 * b1 + 256 * b2 + b3) = [b0, b1, b2, b3] := by
      simp only [u32beBytes, List.cons.injEq]
      norm_num
      omega
    rw [hbytes]
    simp

theorem b85_flush_partial1 (b0 : Nat) (h0 : b0 < 256) :
    ∃ g, decode_dwords_from_base85 ((Base85Encoder.flush_buffer ⟨[b0], []⟩).writer)
        = b0 :: g ∧ g.length = 3 := by
  unfold Base85Encoder.flush_buffer
  rw [if_neg (by simp)]
  simp only [List.replicate]
  norm_num [beDword]
  rw [if_neg (by simp)]
  have hdec : decode_dwords_from_base85
      [33 + 16777216 * b0 / 52200625 % 85, 33 + 16777216 * b0 / 614125 % 85]
      = u32beBytes (b85dword (16777216 * b0 / 52200625 % 85) (16777216 * b0 / 614125 % 85)
          85 85 85) := by
    conv_lhs => rw [decode_dwords_from_base85]
    rw [if_neg (by omega)]
    have hx : ∀ x : Nat, 33 + x - 33 = x := fun x => by omega
    rw [hx, hx]
  rw [hdec]
  have e1 : 16777216 * b0 / 614125 / 85 = 16777216 * b0 / 52200625 := by
    rw [Nat.div_div_eq_div_mul]
  have hD : b85dword (16777216 * b0 / 52200625 % 85) (16777216 * b0 / 614125 % 85) 85 85 85
      = 16777216 * b0 + (621435 - 16777216 * b0 % 614125) := by
    unfold b85dword
    have d0 : 16777216 * b0 / 52200625 % 85 = 16777216 * b0 / 52200625 :=
      Nat.mod_eq_of_lt (by omega)
    have d1 : 614125 * (16777216 * b0 / 614125 % 85)
        = 614125 * (16777216 * b0 / 614125) - 52200625 * (16777216 * b0 / 52200625) := by
      omega
    norm_num
    omega
  rw [hD]
  have hhead : (16777216 * b0 + (621435 - 16777216 * b0 % 614125)) / 2 ^ 24 % 256 = b0 := by
    have hδ1 : 621435 - 16777216 * b0 % 614125 < 2 ^ 24 := by omega
    have hsplit : 16777216 * b0 + (621435 - 16777216 * b0 % 614125)
        = (621435 - 16777216 * b0 % 614125) + b0 * 2 ^ 24 := by ring
    rw [hsplit, Nat.add_mul_div_right _ _ (by norm_num), Nat.div_eq_of_lt hδ1]
    norm_num
    exact h0
  refine ⟨[(16777216 * b0 + (621435 - 16777216 * b0 % 614125)) / 2 ^ 16 % 256,
           (16777216 * b0 + (621435 - 16777216 * b0 % 614125)) / 2 ^ 8 % 256,
           (16777216 * b0 + (621435 - 16777216 * b0 % 614125)) % 256], ?_, rfl⟩
  unfold u32beBytes
  rw [hhead]

theorem b85_flush_partial2 (b0 b1 : Nat) (h0 : b0 < 256) (h1 : b1 < 256) :
    ∃ g, decode_dwords_from_base85 ((Base85Encoder.flush_buffer ⟨[b0, b1], []⟩).writer)
        = b0 :: b1 :: g ∧ g.length = 2 := by
  unfold Base85Encoder.flush_buffer
  rw [if_neg (by simp)]
  simp only [List.replicate]
  norm_num [beDword]
  rw [if_neg (by simp)]
  have hdec : decode_dwords_from_base85
      [33 + (16777216 * b0 + 65536 * b1) / 52200625 % 85,
       33 + (16777216 * b0 + 65536 * b1) / 614125 % 85,
       33 + (16777216 * b0 + 65536 * b1) / 7225 % 85]
      = u32beBytes (b85dword ((16777216 * b0 + 65536 * b1) / 52200625 % 85)
          ((16777216 * b0 + 65536 * b1) / 614125 % 85)
          ((16777216 * b0 + 65536 * b1) / 7225 % 85) 85 85) := by
    conv_lhs => rw [decode_dwords_from_base85]
    rw [if_neg (by omega)]
    have hx : ∀ x : Nat, 33 + x - 33 = x := fun x => by omega
    rw [hx, hx, hx]
  rw [hdec]
  have e1 : (16777216 * b0 + 65536 * b1) / 614125 / 85
      = (16777216 * b0 + 65536 * b1) / 52200625 := by
    rw [Nat.div_div_eq_div_mul]
  have e2 : (16777216 * b0 + 65536 * b1) / 7225 / 85
      = (16777216 * b0 + 65536 * b1) / 614125 := by
    rw [Nat.div_div_eq_div_mul]
  have hD : b85dword ((16777216 * b0 + 65536 * b1) / 52200625 % 85)
      ((16777216 * b0 + 65536 * b1) / 614125 % 85)
      ((16777216 * b0 + 65536 * b1) / 7225 % 85) 85 85
      = 7225 * ((16777216 * b0 + 65536 * b1) / 7225) + 7310 := by
    unfold b85dword
    have d0 : (16777216 * b0 + 65536 * b1) / 52200625 % 85
        = (16777216 * b0 + 65536 * b1) / 52200625 := Nat.mod_eq_of_lt (by omega)
    have d1 : 614125 * ((16777216 * b0 + 65536 * b1) / 614125 % 85)
        = 614125 * ((16777216 * b0 + 65536 * b1) / 614125)
          - 52200625 * ((16777216 * b0 + 65536 * b1) / 52200625) := by omega
    have d2 : 7225 * ((16777216 * b0 + 65536 * b1) / 7225 % 85)
        = 7225 * ((16777216 * b0 + 65536 * b1) / 7225)
          - 614125 * ((16777216 * b0 + 65536 * b1) / 614125) := by omega
    norm_num
    omega
  rw [hD]
  obtain ⟨d, hd1, hd2, hdeq⟩ : ∃ d, 1 ≤ d ∧ d ≤ 7310 ∧
      7225 * ((16777216 * b0 + 65536 * b1) / 7225) + 7310 = d + b1 * 65536 + b0 * 16777216 :=
    ⟨7310 - (16777216 * b0 + 65536 * b1) % 7225, by omega, by omega, by omega⟩
  rw [hdeq]
  refine ⟨[(d + b1 * 65536 + b0 * 16777216) / 2 ^ 8 % 256,
           (d + b1 * 65536 + b0 * 16777216) % 256], ?_, rfl⟩
  unfold u32beBytes
  simp only [List.cons.injEq, and_true]
  constructor
  · have hE : d + b1 * 65536 + b0 * 16777216 = (d + b1 * 65536) + b0 * 2 ^ 24 := by ring
    have hsm : d + b1 * 65536 < 2 ^ 24 := by omega
    rw [hE, Nat.add_mul_div_right _ _ (show (0:Nat) < 2 ^ 24 by norm_num),
      Nat.div_eq_of_lt hsm]
    norm_num
    exact h0
  · have hE : d + b1 * 65536 + b0 * 16777216 = d + (b1 + b0 * 256) * 2 ^ 16 := by ring
    have hsm : d < 2 ^ 16 := by omega
    rw [hE, Nat.add_mul_div_right _ _ (show (0:Nat) < 2 ^ 16 by norm_num),
      Nat.div_eq_of_lt hsm]
    norm_num
    exact h1

theorem b85_flush_partial3 (b0 b1 b2 : Nat) (h0 : b0 < 256) (h1 : b1 < 256) (h2 : b2 < 256) :
    ∃ g, decode_dwords_from_base85 ((Base85Encoder.flush_buffer ⟨[b0, b1, b2], []⟩).writer)
        = b0 :: b1 :: b2 :: g ∧ g.length = 1 := by
  unfold Base85Encoder.flush_buffer
  rw [if_neg (by simp)]
  simp only [List.replicate]
  norm_num [beDword]
  have hdec : decode_dwords_from_base85
      [33 + (16777216 * b0 + 65536 * b1 + 256 * b2) / 52200625 % 85,
       33 + (16777216 * b0 + 65536 * b1 + 256 * b2) / 614125 % 85,
       33 + (16777216 * b0 + 65536 * b1 + 256 * b2) / 7225 % 85,
       33 + (16777216 * b0 + 65536 * b1 + 256 * b2) / 85 % 85]
      = u32beBytes (b85dword ((16777216 * b0 + 65536 * b1 + 256 * b2) / 52200625 % 85)
          ((16777216 * b0 + 65536 * b1 + 256 * b2) / 614125 % 85)
          ((16777216 * b0 + 65536 * b1 + 256 * b2) / 7225 % 85)
          ((16777216 * b0 + 65536 * b1 + 256 * b2) / 85 % 85) 85) := by
    conv_lhs => rw [decode_dwords_from_base85]
    rw [if_neg (by omega)]
    have hx : ∀ x : Nat, 33 + x - 33 = x := fun x => by omega
    rw [hx, hx, hx, hx]
  rw [hdec]
  have e1 : (16777216 * b0 + 65536 * b1 + 256 * b2) / 614125 / 85
      = (16777216 * b0 + 65536 * b1 + 256 * b2) / 52200625 := by
    rw [Nat.div_div_eq_div_mul]
  have e2 : (16777216 * b0 + 65536 * b1 + 256 * b2) / 7225 / 85
      = (16777216 * b0 + 65536 * b1 + 256 * b2) / 614125 := by
    rw [Nat.div_div_eq_div_mul]
  have e3 : (16777216 * b0 + 65536 * b1 + 256 * b2) / 85 / 85
      = (16777216 * b0 + 65536 * b1 + 256 * b2) / 7225 := by
    rw [Nat.div_div_eq_div_mul]
  have hD : b85dword ((16777216 * b0 + 65536 * b1 + 256 * b2) / 52200625 % 85)
      ((16777216 * b0 + 65536 * b1 + 256 * b2) / 614125 % 85)
      ((16777216 * b0 + 65536 * b1 + 256 * b2) / 7225 % 85)
      ((16777216 * b0 + 65536 * b1 + 256 * b2) / 85 % 85) 85
      = 85 * ((16777216 * b0 + 65536 * b1 + 256 * b2) / 85) + 85 := by
    unfold b85dword
    have d0 : (16777216 * b0 + 65536 * b1 + 256 * b2) / 52200625 % 85
        = (16777216 * b0 + 65536 * b1 + 256 * b2) / 52200625 := Nat.mod_eq_of_lt (by omega)
    have d1 : 614125 * ((16777216 * b0 + 65536 * b1 + 256 * b2) / 614125 % 85)
        = 614125 * ((16777216 * b0 + 65536 * b1 + 256 * b2) / 614125)
          - 52200625 * ((16777216 * b0 + 65536 * b1 + 256 * b2) / 52200625) := by omega
    have d2 : 7225 * ((16777216 * b0 + 65536 * b1 + 256 * b2) / 7225 % 85)
        = 7225 * ((16777216 * b0 + 65536 * b1 + 256 * b2) / 7225)
          - 614125 * ((16777216 * b0 + 65536 * b1 + 256 * b2) / 614125) := by omega
    have d3 : 85 * ((16777216 * b0 + 65536 * b1 + 256 * b2) / 85 % 85)
        = 85 * ((16777216 * b0 + 65536 * b1 + 256 * b2) / 85)
          - 7225 * ((16777216 * b0 + 65536 * b1 + 256 * b2) / 7225) := by omega
    norm_num
    omega
  rw [hD]
  obtain ⟨d, hd1, hd2, hdeq⟩ : ∃ d, 1 ≤ d ∧ d ≤ 85 ∧
      85 * ((16777216 * b0 + 65536 * b1 + 256 * b2) / 85) + 85
        = d + b2 * 256 + b1 * 65536 + b0 * 16777216 :=
    ⟨85 - (16777216 * b0 + 65536 * b1 + 256 * b2) % 85, by omega, by omega, by omega⟩
  rw [hdeq]
  refine ⟨[(d + b2 * 256 + b1 * 65536 + b0 * 16777216) % 256], ?_, rfl⟩
  unfold u32beBytes
  simp only [List.cons.injEq, and_true]
  refine ⟨?_, ?_, ?_⟩
  · have hE : d + b2 * 256 + b1 * 65536 + b0 * 16777216
        = (d + b2 * 256 + b1 * 65536) + b0 * 2 ^ 24 := by ring
    have hsm : d + b2 * 256 + b1 * 65536 < 2 ^ 24 := by omega
    rw [hE, Nat.add_mul_div_right _ _ (show (0:Nat) < 2 ^ 24 by norm_num),
      Nat.div_eq_of_lt hsm]
    norm_num
    exact h0
  · have hE : d + b2 * 256 + b1 * 65536 + b0 * 16777216
        = (d + b2 * 256) + (b1 + b0 * 256) * 2 ^ 16 := by ring
    have hsm : d + b2 * 256 < 2 ^ 16 := by omega
    rw [hE, Nat.add_mul_div_right _ _ (show (0:Nat) < 2 ^ 16 by norm_num),
      Nat.div_eq_of_lt hsm]
    norm_num
    exact h1
  · have hE : d + b2 * 256 + b1 * 65536 + b0 * 16777216
        = d + (b2 + (b1 + b0 * 256) * 256) * 2 ^ 8 := by ring
    have hsm : d < 2 ^ 8 := by omega
    rw [hE, Nat.add_mul_div_right _ _ (show (0:Nat) < 2 ^ 8 by norm_num),
      Nat.div_eq_of_lt hsm]
    norm_num
    exact h2

theorem b85_roundtrip_go : ∀ (n : Nat) (bs : List Nat), bs.length = n → (∀ b ∈ bs, b < 256) →
    ∃ g, decode_dwords_from_base85 ((writeBytes ⟨[], []⟩ bs).flush_buffer.writer) = bs ++ g := by
  intro n
  induction n using Nat.strong_induction_on with
  | _ n ih =>
    intro bs hlen h
    match bs with
    | [] =>
      refine ⟨[], ?_⟩
      simp [writeBytes, Base85Encoder.flush_buffer, decode_dwords_from_base85]
    | [b0] =>
      have hw : writeBytes ⟨[], []⟩ [b0] = ⟨[b0], []⟩ := by
        simp [writeBytes, Base85Encoder.write]
      rw [hw]
      obtain ⟨g, hg, _⟩ := b85_flush_partial1 b0 (h b0 (by simp))
      exact ⟨g, by simpa using hg⟩
    | [b0, b1] =>
      have hw : writeBytes ⟨[], []⟩ [b0, b1] = ⟨[b0, b1], []⟩ := by
        simp [writeBytes, Base85Encoder.write]
      rw [hw]
      obtain ⟨g, hg, _⟩ := b85_flush_partial2 b0 b1 (h b0 (by simp)) (h b1 (by simp))
      exact ⟨g, by simpa using hg⟩
    | [b0, b1, b2] =>
      have hw : writeBytes ⟨[], []⟩ [b0, b1, b2] = ⟨[b0, b1, b2], []⟩ := by
        simp [writeBytes, Base85Encoder.write]
      rw [hw]
      obtain ⟨g, hg, _⟩ :=
        b85_flush_partial3 b0 b1 b2 (h b0 (by simp)) (h b1 (by simp)) (h b2 (by simp))
      exact ⟨g, by simpa using hg⟩
    | b0 :: b1 :: b2 :: b3 :: rest =>
      have hb0 : b0 < 256 := h b0 (by simp)
      have hb1 : b1 < 256 := h b1 (by simp)
      have hb2 : b2 < 256 := h b2 (by simp)
      have hb3 : b3 < 256 := h b3 (by simp)
      have hsplit4 : (b0 :: b1 :: b2 :: b3 :: rest) = [b0, b1, b2, b3] ++ rest := rfl
      rw [hsplit4, writeBytes_append, writeBytes4, flush_buffer_four b0 b1 b2 b3 [] hb0 hb1 hb2 hb3]
      simp only [List.nil_append]
      rcases hws : writeBytes ⟨[], []⟩ rest with ⟨buf2, w2⟩
      have hshift := writeBytes_shift rest [] (b85chunk b0 b1 b2 b3)
      rw [hws] at hshift
      simp only at hshift
      rw [hshift, flush_buffer_shift]
      obtain ⟨g, hg⟩ := ih rest.length (by simp at hlen; omega) rest rfl
        (fun b hb => h b (by simp [hb]))
      rw [hws, flush_buffer_shift] at hg
      simp only at hg
      simp only
      rw [List.append_assoc, decode_b85chunk b0 b1 b2 b3 _ hb0 hb1 hb2 hb3, hg]
      exact ⟨g, by simp⟩

/-- The streamed base85 encoder followed by `decode_dwords_from_base85`
reproduces the input bytes, followed by at most three junk bytes from the
padding of a trailing partial group. -/
theorem b85_roundtrip (bs : List Nat) (h : ∀ b ∈ bs, b < 256) :
    ∃ g, decode_dwords_from_base85 ((writeBytes ⟨[], []⟩ bs).flush_buffer.writer) = bs ++ g :=
  b85_roundtrip_go bs.length bs rfl h

/-! ### Note records: byte sequences and roundtrip -/

theorem tap_byte_self (col : Nat) (h : col < 128) : col &&& 127 = col := by
  rw [and_127_eq]
  omega

theorem tap_byte_ext (col : Nat) (h : col < 128) : col &&& 128 = 0 := by
  rw [and_128_eq]
  omega

theorem ext_byte_col (col : Nat) (h : col < 128) : (col ||| 128) &&& 127 = col := by
  rw [lor_128_eq _ h, and_127_eq]
  omega

theorem ext_byte_ext (col : Nat) (h : col < 128) : (col ||| 128) &&& 128 = 128 := by
  rw [lor_128_eq _ h, and_128_eq]
  have h1 : (128 + col) / 128 = 1 := by omega
  rw [h1]

/-- The bytes written for a single note record by `encode_notes`. -/
def note_bytes (position_bytes : Nat → List Nat) (note : Note) : List Nat :=
  match note.kind with
  | .Tap => (note.column &&& 127) :: position_bytes note.pos
  | .Hold end_pos =>
    (note.column ||| 128) :: (position_bytes note.pos ++ position_bytes end_pos ++ [0])
  | .Mine =>
    (note.column ||| 128) :: (position_bytes note.pos ++ position_bytes note.pos ++ [1])
  | .Roll end_pos =>
    (note.column ||| 128) :: (position_bytes note.pos ++ position_bytes end_pos ++ [2])
  | .Lift =>
    (note.column ||| 128) :: (position_bytes note.pos ++ position_bytes note.pos ++ [3])
  | .Fake =>
    (note.column ||| 128) :: (position_bytes note.pos ++ position_bytes note.pos ++ [4])

theorem encode_note_eq_writeBytes (position_decode : Base85Encoder → Nat → Base85Encoder)
    (position_bytes : Nat → List Nat)
    (hpd : ∀ (w : Base85Encoder) (p : Nat), position_decode w p = writeBytes w (position_bytes p))
    (w : Base85Encoder) (note : Note) :
    encode_note position_decode w note = writeBytes w (note_bytes position_bytes note) := by
  rcases note with ⟨pos, col, kind⟩
  cases kind <;>
    simp [encode_note, note_bytes, hpd, writeBytes_cons, ← writeBytes_append, writeBytes,
      List.foldl_append]

theorem foldl_encode_note (position_decode : Base85Encoder → Nat → Base85Encoder)
    (position_bytes : Nat → List Nat)
    (hpd : ∀ (w : Base85Encoder) (p : Nat), position_decode w p = writeBytes w (position_bytes p)) :
    ∀ (notes : List Note) (w : Base85Encoder),
    notes.foldl (encode_note position_decode) w
      = writeBytes w (notes.flatMap (note_bytes position_bytes)) := by
  intro notes
  induction notes with
  | nil => intro w; simp [writeBytes]
  | cons note notes ih =>
    intro w
    simp only [List.foldl_cons, List.flatMap_cons]
    rw [ih, encode_note_eq_writeBytes position_decode position_bytes hpd, writeBytes_append]

/-- Well-formedness of a note for a position domain: the column fits in 7
bits and all positions satisfy the domain predicate. -/
def noteWF (pwf : Nat → Prop) (note : Note) : Prop :=
  note.column < 128 ∧ pwf note.pos ∧
    (match note.kind with
     | .Hold end_pos => pwf end_pos
     | .Roll end_pos => pwf end_pos
     | _ => True)

theorem tap_byte_col2 (col : Nat) (h : col < 128) : (col &&& 127) &&& 127 = col := by
  rw [and_127_eq, and_127_eq]
  omega

theorem tap_byte_ext2 (col : Nat) (h : col < 128) : (col &&& 127) &&& 128 = 0 := by
  rw [and_128_eq, and_127_eq]
  omega

theorem decode_notes_go_roundtrip (position_decode : List Nat → Except DecodeError (Nat × List Nat))
    (position_bytes : Nat → List Nat) (pwf : Nat → Prop)
    (hdec : ∀ (p : Nat) (rest : List Nat), pwf p →
      position_decode (position_bytes p ++ rest) = .ok (p, rest)) :
    ∀ (notes : List Note) (rest : List Nat), (∀ x ∈ notes, noteWF pwf x) →
    decode_notes_go position_decode notes.length
      (notes.flatMap (note_bytes position_bytes) ++ rest) = .ok (notes, rest) := by
  intro notes
  induction notes with
  | nil => intro rest _; simp [decode_notes_go]
  | cons note notes ih =>
    intro rest hwf
    have hrest : ∀ x ∈ notes, noteWF pwf x := fun x hx => hwf x (by simp [hx])
    rcases note with ⟨pos, col, kind⟩
    obtain ⟨hcol, hpos, hend⟩ := hwf ⟨pos, col, kind⟩ (by simp)
    simp only at hcol hpos hend
    have hihr := ih rest hrest
    cases kind with
    | Tap =>
      have hd1 : ∀ r, position_decode (position_bytes pos ++ r) = .ok (pos, r) :=
        fun r => hdec pos r hpos
      simp only [List.length_cons, List.flatMap_cons, note_bytes, List.cons_append,
        List.append_assoc, decode_notes_go]
      simp [hd1, tap_byte_ext2 col hcol, tap_byte_col2 col hcol, hihr]
    | Hold end_pos =>
      have hend2 : pwf end_pos := by simpa using hend
      have hd1 : ∀ r, position_decode (position_bytes pos ++ r) = .ok (pos, r) :=
        fun r => hdec pos r hpos
      have hd2 : ∀ r, position_decode (position_bytes end_pos ++ r) = .ok (end_pos, r) :=
        fun r => hdec end_pos r hend2
      simp only [List.length_cons, List.flatMap_cons, note_bytes, List.cons_append,
        List.append_assoc, decode_notes_go]
      simp [hd1, hd2, ext_byte_ext col hcol, ext_byte_col col hcol, hihr]
    | Mine =>
      have hd1 : ∀ r, position_decode (position_bytes pos ++ r) = .ok (pos, r) :=
        fun r => hdec pos r hpos
      simp only [List.length_cons, List.flatMap_cons, note_bytes, List.cons_append,
        List.append_assoc, decode_notes_go]
      simp [hd1, ext_byte_ext col hcol, ext_byte_col col hcol, hihr]
    | Roll end_pos =>
      have hend2 : pwf end_pos := by simpa using hend
      have hd1 : ∀ r, position_decode (position_bytes pos ++ r) = .ok (pos, r) :=
        fun r => hdec pos r hpos
      have hd2 : ∀ r, position_decode (position_bytes end_pos ++ r) = .ok (end_pos, r) :=
        fun r => hdec end_pos r hend2
      simp only [List.length_cons, List.flatMap_cons, note_bytes, List.cons_append,
        List.append_assoc, decode_notes_go]
      simp [hd1, hd2, ext_byte_ext col hcol, ext_byte_col col hcol, hihr]
    | Lift =>
      have hd1 : ∀ r, position_decode (position_bytes pos ++ r) = .ok (pos, r) :=
        fun r => hdec pos r hpos
      simp only [List.length_cons, List.flatMap_cons, note_bytes, List.cons_append,
        List.append_assoc, decode_notes_go]
      simp [hd1, ext_byte_ext col hcol, ext_byte_col col hcol, hihr]
    | Fake =>
      have hd1 : ∀ r, position_decode (position_bytes pos ++ r) = .ok (pos, r) :=
        fun r => hdec pos r hpos
      simp only [List.length_cons, List.flatMap_cons, note_bytes, List.cons_append,
        List.append_assoc, decode_notes_go]
      simp [hd1, ext_byte_ext col hcol, ext_byte_col col hcol, hihr]

theorem decode_f64_u64le (p : Nat) (rest : List Nat) (hp : p < 2 ^ 64) :
    decode_f64 (u64leBytes p ++ rest) = .ok (p, rest) := by
  simp only [u64leBytes, List.cons_append, decode_f64]
  norm_num
  have e1 : p / 256 / 256 = p / 65536 := by rw [Nat.div_div_eq_div_mul]
  have e2 : p / 65536 / 256 = p / 16777216 := by rw [Nat.div_div_eq_div_mul]
  have e3 : p / 16777216 / 256 = p / 4294967296 := by rw [Nat.div_div_eq_div_mul]
  have e4 : p / 4294967296 / 256 = p / 1099511627776 := by rw [Nat.div_div_eq_div_mul]
  have e5 : p / 1099511627776 / 256 = p / 281474976710656 := by rw [Nat.div_div_eq_div_mul]
  have e6 : p / 281474976710656 / 256 = p / 72057594037927936 := by rw [Nat.div_div_eq_div_mul]
  omega

theorem decode_u32_u32le (p : Nat) (rest : List Nat) (hp : p < 2 ^ 32) :
    decode_u32 (u32leBytes p ++ rest) = .ok (p, rest) := by
  simp only [u32leBytes, List.cons_append, decode_u32]
  norm_num
  have e1 : p / 256 / 256 = p / 65536 := by rw [Nat.div_div_eq_div_mul]
  have e2 : p / 65536 / 256 = p / 16777216 := by rw [Nat.div_div_eq_div_mul]
  omega

theorem u64leBytes_lt_256 (p : Nat) : ∀ b ∈ u64leBytes p, b < 256 := by
  simp only [u64leBytes, List.mem_cons]
  intro b hb
  rcases hb with rfl | rfl | rfl | rfl | rfl | rfl | rfl | rfl | h <;>
    first
      | exact Nat.mod_lt _ (by norm_num)
      | simp at h

theorem u32leBytes_lt_256 (p : Nat) : ∀ b ∈ u32leBytes p, b < 256 := by
  simp only [u32leBytes, List.mem_cons]
  intro b hb
  rcases hb with rfl | rfl | rfl | rfl | h <;>
    first
      | exact Nat.mod_lt _ (by norm_num)
      | simp at h

theorem note_bytes_lt_256 (position_bytes : Nat → List Nat)
    (hpb : ∀ p b, b ∈ position_bytes p → b < 256) (note : Note) (hcol : note.column < 128) :
    ∀ b ∈ note_bytes position_bytes note, b < 256 := by
  rcases note with ⟨pos, col, kind⟩
  simp only at hcol
  have hcol127 : col &&& 127 < 256 := by rw [and_127_eq]; omega
  have hcol128 : col ||| 128 < 256 := by rw [lor_128_eq _ hcol]; omega
  cases kind <;>
    (intro b hb
     simp only [note_bytes, List.mem_cons, List.mem_append, List.mem_singleton] at hb
     rcases hb with rfl | hb
     · assumption
     · first
         | exact hpb _ _ hb
         | (rcases hb with (hb | hb) | rfl | hb
            · exact hpb _ _ hb
            · exact hpb _ _ hb
            · norm_num
            · simp at hb))

/-- The pre-base85 body bytes of an `encode_notes` stream: flag byte,
varint note count, then the note records. -/
def notes_body_bytes (position_bytes : Nat → List Nat) (time_based : Bool)
    (notes : List Note) : List Nat :=
  (if time_based then 1 else 0) :: varint_bytes notes.length
    ++ notes.flatMap (note_bytes position_bytes)

theorem encode_notes_eq (pcmp : Nat → Nat → Option Ordering)
    (position_decode : Base85Encoder → Nat → Base85Encoder) (position_bytes : Nat → List Nat)
    (hpd : ∀ (w : Base85Encoder) (p : Nat), position_decode w p = writeBytes w (position_bytes p))
    (writer : List Nat) (notes : List Note) (time_based : Bool)
    (hsorted : notesSorted pcmp notes = true) :
    encode_notes pcmp position_decode writer notes time_based
      = (.ok (), (writer ++ notesSig)
          ++ ((writeBytes ⟨[], []⟩
              (notes_body_bytes position_bytes time_based notes)).flush_buffer).writer) := by
  unfold encode_notes
  rw [if_neg (by simp [hsorted])]
  dsimp only
  have h1 : Base85Encoder.write ⟨[], writer ++ notesSig⟩ (if time_based then 1 else 0)
      = writeBytes ⟨[], writer ++ notesSig⟩ [if time_based then 1 else 0] := rfl
  rw [h1, encode_varint_eq_writeBytes, foldl_encode_note position_decode position_bytes hpd]
  rw [← writeBytes_append, ← writeBytes_append]
  have hbody : [if time_based then 1 else 0]
      ++ (varint_bytes notes.length ++ notes.flatMap (note_bytes position_bytes))
      = notes_body_bytes position_bytes time_based notes := by
    simp [notes_body_bytes]
  rw [hbody]
  rcases hB : writeBytes ⟨[], []⟩ (notes_body_bytes position_bytes time_based notes)
    with ⟨bb, bw⟩
  have hsh := writeBytes_shift (notes_body_bytes position_bytes time_based notes) []
    (writer ++ notesSig)
  rw [hB] at hsh
  simp only at hsh
  rw [hsh, flush_buffer_shift]
  simp [flush_buffer_shift bb bw]

theorem stripSignature_self_append : ∀ (sig x : List Nat), stripSignature sig (sig ++ x) = some x := by
  intro sig
  induction sig with
  | nil => intro x; rfl
  | cons s sig ih => intro x; simp [stripSignature, ih]

theorem notesSig_bytes : notesSig
    = [65, 114, 114, 111, 119, 86, 111, 114, 116, 101, 120, 58, 110, 111, 116, 101, 115, 58] := by
  decide

theorem tempoSig_bytes : tempoSig
    = [65, 114, 114, 111, 119, 86, 111, 114, 116, 101, 120, 58, 116, 101, 109, 112, 111, 58] := by
  decide

theorem stripSignature_notes_tempo (x : List Nat) :
    stripSignature notesSig (tempoSig ++ x) = none := by
  rw [notesSig_bytes, tempoSig_bytes]
  simp [stripSignature]

theorem notes_body_lt_256 (position_bytes : Nat → List Nat)
    (hpb : ∀ p b, b ∈ position_bytes p → b < 256) (tb : Bool) (notes : List Note)
    (hcols : ∀ x ∈ notes, x.column < 128) :
    ∀ b ∈ notes_body_bytes position_bytes tb notes, b < 256 := by
  intro b hb
  simp only [notes_body_bytes, List.cons_append, List.mem_cons, List.mem_append,
    List.mem_flatMap] at hb
  rcases hb with rfl | hb | ⟨note, hn, hb⟩
  · cases tb <;> norm_num
  · exact varint_bytes_lt_256 _ _ hb
  · exact note_bytes_lt_256 position_bytes hpb note (hcols note hn) b hb

theorem row_notes_roundtrip (notes : List Note)
    (hwf : ∀ x ∈ notes, noteWF (fun p => p < 2 ^ 64) x)
    (hsorted : notesSorted natPcmp notes = true) (hlen : notes.length < 2 ^ 64) :
    encode_row_based_notes [] notes
      = (.ok (), notesSig
          ++ ((writeBytes ⟨[], []⟩
              (notes_body_bytes varint_bytes false notes)).flush_buffer).writer)
    ∧ decode (notesSig
        ++ ((writeBytes ⟨[], []⟩
            (notes_body_bytes varint_bytes false notes)).flush_buffer).writer)
      = .ok (.RowBasedNotes notes) := by
  constructor
  · have h := encode_notes_eq natPcmp encode_varint varint_bytes
      (fun w p => encode_varint_eq_writeBytes p w) [] notes false hsorted
    simpa [encode_row_based_notes] using h
  · unfold decode
    rw [stripSignature_self_append]
    dsimp only
    have hwf256 : ∀ b ∈ notes_body_bytes varint_bytes false notes, b < 256 :=
      notes_body_lt_256 varint_bytes (fun p b hb => varint_bytes_lt_256 p b hb) false notes
        (fun x hx => (hwf x hx).1)
    obtain ⟨g, hg⟩ := b85_roundtrip _ hwf256
    rw [hg]
    have hdn : decode_notes decode_varint
        (varint_bytes notes.length ++ (notes.flatMap (note_bytes varint_bytes) ++ g))
        = .ok (notes, g) := by
      unfold decode_notes
      rw [decode_varint_bytes _ _ hlen]
      exact decode_notes_go_roundtrip decode_varint varint_bytes (fun p => p < 2 ^ 64)
        (fun p r hp => decode_varint_bytes p r hp) notes g hwf
    simp [notes_body_bytes, List.append_assoc, hdn]

theorem time_notes_roundtrip (notes : List Note)
    (hwf : ∀ x ∈ notes, noteWF (fun p => p < 2 ^ 64) x)
    (hsorted : notesSorted f64Pcmp notes = true) (hlen : notes.length < 2 ^ 64) :
    encode_time_based_notes [] notes
      = (.ok (), notesSig
          ++ ((writeBytes ⟨[], []⟩
              (notes_body_bytes u64leBytes true notes)).flush_buffer).writer)
    ∧ decode (notesSig
        ++ ((writeBytes ⟨[], []⟩
            (notes_body_bytes u64leBytes true notes)).flush_buffer).writer)
      = .ok (.TimeBasedNotes notes) := by
  constructor
  · have h := encode_notes_eq f64Pcmp encode_f64 u64leBytes
      (fun w p => encode_f64_eq_writeBytes p w) [] notes true hsorted
    simpa [encode_time_based_notes] using h
  · unfold decode
    rw [stripSignature_self_append]
    dsimp only
    have hwf256 : ∀ b ∈ notes_body_bytes u64leBytes true notes, b < 256 :=
      notes_body_lt_256 u64leBytes (fun p b hb => u64leBytes_lt_256 p b hb) true notes
        (fun x hx => (hwf x hx).1)
    obtain ⟨g, hg⟩ := b85_roundtrip _ hwf256
    rw [hg]
    have hdn : decode_notes decode_f64
        (varint_bytes notes.length ++ (notes.flatMap (note_bytes u64leBytes) ++ g))
        = .ok (notes, g) := by
      unfold decode_notes
      rw [decode_varint_bytes _ _ hlen]
      exact decode_notes_go_roundtrip decode_f64 u64leBytes (fun p => p < 2 ^ 64)
        (fun p r hp => decode_f64_u64le p r hp) notes g hwf
    simp [notes_body_bytes, List.append_assoc, hdn]

/-! ### Tempo events: byte sequences and roundtrip -/

/-- The bytes written for one tempo event by `encode_single_tempo_event`. -/
def tempo_event_bytes (event : TempoEvent) : List Nat :=
  u32leBytes event.row ++
    match event.kind with
    | .Bpm bpm => u64leBytes bpm
    | .Stop time => u64leBytes time
    | .Delay time => u64leBytes time
    | .Warp n => u32leBytes n
    | .TimeSignature a b => u32leBytes a ++ u32leBytes b
    | .Ticks n => u32leBytes n
    | .Combo c m => u32leBytes c ++ u32leBytes m
    | .Speed r d dit => u64leBytes r ++ u64leBytes d ++ u32leBytes (if dit then 1 else 0)
    | .Scroll r => u64leBytes r
    | .FakeSegment n => u32leBytes n
    | .Label message => varint_bytes message.length ++ message

/-- Machine-width well-formedness of a tempo event. -/
def tempoWF (event : TempoEvent) : Prop :=
  event.row < 2 ^ 32 ∧
    match event.kind with
    | .Bpm bpm => bpm < 2 ^ 64
    | .Stop time => time < 2 ^ 64
    | .Delay time => time < 2 ^ 64
    | .Warp n => n < 2 ^ 32
    | .TimeSignature a b => a < 2 ^ 32 ∧ b < 2 ^ 32
    | .Ticks n => n < 2 ^ 32
    | .Combo c m => c < 2 ^ 32 ∧ m < 2 ^ 32
    | .Speed r d _ => r < 2 ^ 64 ∧ d < 2 ^ 64
    | .Scroll r => r < 2 ^ 64
    | .FakeSegment n => n < 2 ^ 32
    | .Label message => message.length < 2 ^ 64 ∧ ∀ b ∈ message, b < 256

theorem encode_single_tempo_event_eq (w : Base85Encoder) (event : TempoEvent) :
    encode_single_tempo_event w event = writeBytes w (tempo_event_bytes event) := by
  rcases event with ⟨row, kind⟩
  cases kind <;>
    simp [encode_single_tempo_event, tempo_event_bytes, encode_u32, encode_f64,
      encode_varint_eq_writeBytes, ← writeBytes_append, writeBytes, List.foldl_append]

theorem takeBytes_exact (msg rest : List Nat) :
    takeBytes msg.length (msg ++ rest) = .ok (msg, rest) := by
  induction msg with
  | nil => rfl
  | cons b msg ih => simp [takeBytes, ih]

theorem decode_single_tempo_event_bytes (event : TempoEvent) (rest : List Nat)
    (hwf : tempoWF event) :
    decode_single_tempo_event (tempo_event_kind event.kind) (tempo_event_bytes event ++ rest)
      = (.ok event, rest) := by
  rcases event with ⟨row, kind⟩
  obtain ⟨hrow, hk⟩ := hwf
  simp only at hrow hk
  cases kind with
  | Bpm bpm =>
    simp [tempo_event_kind, tempo_event_bytes, decode_single_tempo_event, List.append_assoc,
      decode_u32_u32le row _ hrow, decode_f64_u64le _ _ (by simpa using hk)]
  | Stop time =>
    simp [tempo_event_kind, tempo_event_bytes, decode_single_tempo_event, List.append_assoc,
      decode_u32_u32le row _ hrow, decode_f64_u64le _ _ (by simpa using hk)]
  | Delay time =>
    simp [tempo_event_kind, tempo_event_bytes, decode_single_tempo_event, List.append_assoc,
      decode_u32_u32le row _ hrow, decode_f64_u64le _ _ (by simpa using hk)]
  | Warp n =>
    simp [tempo_event_kind, tempo_event_bytes, decode_single_tempo_event, List.append_assoc,
      decode_u32_u32le row _ hrow, decode_u32_u32le n _ (by simpa using hk)]
  | TimeSignature a b =>
    obtain ⟨ha, hb⟩ : a < 2 ^ 32 ∧ b < 2 ^ 32 := by simpa using hk
    simp [tempo_event_kind, tempo_event_bytes, decode_single_tempo_event, List.append_assoc,
      decode_u32_u32le row _ hrow, decode_u32_u32le a _ ha, decode_u32_u32le b _ hb]
  | Ticks n =>
    simp [tempo_event_kind, tempo_event_bytes, decode_single_tempo_event, List.append_assoc,
      decode_u32_u32le row _ hrow, decode_u32_u32le n _ (by simpa using hk)]
  | Combo c m =>
    obtain ⟨hc, hm⟩ : c < 2 ^ 32 ∧ m < 2 ^ 32 := by simpa using hk
    simp [tempo_event_kind, tempo_event_bytes, decode_single_tempo_event, List.append_assoc,
      decode_u32_u32le row _ hrow, decode_u32_u32le c _ hc, decode_u32_u32le m _ hm]
  | Speed r d dit =>
    obtain ⟨hr, hd⟩ : r < 2 ^ 64 ∧ d < 2 ^ 64 := by simpa using hk
    cases dit <;>
      simp [tempo_event_kind, tempo_event_bytes, decode_single_tempo_event, List.append_assoc,
        decode_u32_u32le row _ hrow, decode_f64_u64le r _ hr, decode_f64_u64le d _ hd,
        decode_u32_u32le 0 _ (by norm_num : (0 : Nat) < 2 ^ 32),
        decode_u32_u32le 1 _ (by norm_num : (1 : Nat) < 2 ^ 32)]
  | Scroll r =>
    simp [tempo_event_kind, tempo_event_bytes, decode_single_tempo_event, List.append_assoc,
      decode_u32_u32le row _ hrow, decode_f64_u64le _ _ (by simpa using hk)]
  | FakeSegment n =>
    simp [tempo_event_kind, tempo_event_bytes, decode_single_tempo_event, List.append_assoc,
      decode_u32_u32le row _ hrow, decode_u32_u32le n _ (by simpa using hk)]
  | Label message =>
    obtain ⟨hlen, hmsg⟩ : message.length < 2 ^ 64 ∧ ∀ b ∈ message, b < 256 := by simpa using hk
    simp [tempo_event_kind, tempo_event_bytes, decode_single_tempo_event, List.append_assoc,
      decode_u32_u32le row _ hrow, decode_varint_bytes _ _ hlen, takeBytes_exact]

theorem decode_tempo_go_none_cons (count k : Nat) (data : List Nat) (hc : ¬ count = 0) :
    decode_tempo_go count none (k :: data) = decode_tempo_go count (some k) data := by
  rw [decode_tempo_go, decode_tempo_go]

/-- Plain (non-dependent) unfolding of one `decode_tempo_go` iteration with a
memoized kind. -/
theorem decode_tempo_go_some (count k : Nat) (d : List Nat) (hc : ¬ count = 0) :
    decode_tempo_go count (some k) d =
      if count - 1 = 0 then
        match decode_varint (decode_single_tempo_event k d).2 with
        | .error e => .error e
        | .ok (c, d3) =>
          match (decode_single_tempo_event k d).1 with
          | .error e => .error e
          | .ok event =>
            match decode_tempo_go c none d3 with
            | .error e => .error e
            | .ok evs => .ok (event :: evs)
      else
        match (decode_single_tempo_event k d).1 with
        | .error e => .error e
        | .ok event =>
          match decode_tempo_go (count - 1) (some k) (decode_single_tempo_event k d).2 with
          | .error e => .error e
          | .ok evs => .ok (event :: evs) := by
  rw [decode_tempo_go]
  rw [if_neg hc]
  dsimp only
  split
  · split
    · rename_i e2 hvv
      rw [hvv]
    · rename_i cr c d3 hvv
      rw [hvv]
      dsimp only
      split <;> rename_i hp hh <;> rw [hp]
  · split <;> rename_i hp hh <;> rw [hp]

theorem decode_tempo_go_run : ∀ (grp : List TempoEvent) (k : Nat) (tail : List Nat),
    grp ≠ [] → (∀ e ∈ grp, tempoWF e ∧ tempo_event_kind e.kind = k) →
    decode_tempo_go grp.length (some k) (grp.flatMap tempo_event_bytes ++ tail)
      = (match decode_varint tail with
         | .error e => .error e
         | .ok (c, rest) =>
           match decode_tempo_go c none rest with
           | .error e => .error e
           | .ok events => .ok (grp ++ events)) := by
  intro grp
  induction grp with
  | nil => intro k tail h _; exact absurd rfl h
  | cons e grp ih =>
    intro k tail _ hwf
    obtain ⟨hew, hek⟩ := hwf e (by simp)
    by_cases hg : grp = []
    · subst hg
      have hse := decode_single_tempo_event_bytes e tail hew
      rw [hek] at hse
      simp only [List.flatMap_cons, List.flatMap_nil, List.append_nil, List.length_cons,
        List.length_nil, Nat.zero_add]
      rw [decode_tempo_go_some 1 k _ (by norm_num), hse]
      rfl
    · have hse := decode_single_tempo_event_bytes e (grp.flatMap tempo_event_bytes ++ tail) hew
      rw [hek] at hse
      have hlg : ¬ grp.length = 0 := by
        intro hl
        exact hg (List.length_eq_zero.mp hl)
      simp only [List.flatMap_cons, List.append_assoc, List.length_cons]
      rw [decode_tempo_go_some (grp.length + 1) k _ (by omega), hse]
      dsimp only
      rw [if_neg (by omega)]
      simp only [Nat.add_sub_cancel]
      rw [ih k tail hg (fun x hx => hwf x (by simp [hx]))]
      cases hv : decode_varint tail with
      | error e2 => rfl
      | ok cr =>
        rcases cr with ⟨c, rest⟩
        cases hgo : decode_tempo_go c none rest with
        | error e2 => simp [hgo]
        | ok events => simp [hgo]

/-- The pre-base85 body bytes of the runs of an `encode_tempo` stream (one
run per group: varint count, kind tag byte, then the events), excluding the
terminating zero-count run. -/
def tempo_runs_bytes (groups : List (Nat × List TempoEvent)) : List Nat :=
  groups.flatMap (fun kg => varint_bytes kg.2.length ++ kg.1 :: kg.2.flatMap tempo_event_bytes)

theorem foldl_encode_tempo_event : ∀ (evs : List TempoEvent) (w : Base85Encoder),
    evs.foldl encode_single_tempo_event w = writeBytes w (evs.flatMap tempo_event_bytes) := by
  intro evs
  induction evs with
  | nil => intro w; simp [writeBytes]
  | cons e evs ih =>
    intro w
    simp only [List.foldl_cons, List.flatMap_cons]
    rw [ih, encode_single_tempo_event_eq, writeBytes_append]

theorem foldl_encode_run : ∀ (groups : List (Nat × List TempoEvent)) (w : Base85Encoder),
    groups.foldl
      (fun w kg => kg.2.foldl encode_single_tempo_event
        (Base85Encoder.write (encode_varint w kg.2.length) kg.1))
      w = writeBytes w (tempo_runs_bytes groups) := by
  intro groups
  induction groups with
  | nil => intro w; simp [tempo_runs_bytes, writeBytes]
  | cons kg groups ih =>
    intro w
    simp only [List.foldl_cons]
    rw [ih, foldl_encode_tempo_event]
    have h1 : Base85Encoder.write (encode_varint w kg.2.length) kg.1
        = writeBytes w (varint_bytes kg.2.length ++ [kg.1]) := by
      rw [writeBytes_append, encode_varint_eq_writeBytes]
      rfl
    rw [h1, ← writeBytes_append, ← writeBytes_append]
    congr 1
    simp [tempo_runs_bytes, List.flatMap_cons]

theorem encode_tempo_eq (writer : List Nat) (events : List TempoEvent)
    (hsorted : tempoSorted events = true) :
    encode_tempo writer events
      = (.ok (), (writer ++ tempoSig)
          ++ ((writeBytes ⟨[], []⟩
              (tempo_runs_bytes (group_by (fun ev => tempo_event_kind ev.kind) events)
                ++ varint_bytes 0)).flush_buffer).writer) := by
  unfold encode_tempo
  rw [if_neg (by simp [hsorted])]
  dsimp only
  rw [foldl_encode_run, encode_varint_eq_writeBytes, ← writeBytes_append]
  rcases hB : writeBytes ⟨[], []⟩
      (tempo_runs_bytes (group_by (fun ev => tempo_event_kind ev.kind) events)
        ++ varint_bytes 0) with ⟨bb, bw⟩
  have hsh := writeBytes_shift
    (tempo_runs_bytes (group_by (fun ev => tempo_event_kind ev.kind) events)
      ++ varint_bytes 0) [] (writer ++ tempoSig)
  rw [hB] at hsh
  simp only at hsh
  rw [hsh, flush_buffer_shift]
  simp [flush_buffer_shift bb bw]

theorem group_by_flatten (key : TempoEvent → Nat) (l : List TempoEvent) :
    (group_by key l).flatMap Prod.snd = l := by
  suffices h : ∀ (n : Nat) (l : List TempoEvent), l.length = n →
      (group_by key l).flatMap Prod.snd = l by
    exact h l.length l rfl
  intro n
  induction n using Nat.strong_induction_on with
  | _ n ih =>
    intro l hn
    cases l with
    | nil => simp [group_by]
    | cons x rest =>
      rw [group_by]
      simp only [List.flatMap_cons]
      have hlt : (rest.dropWhile (fun y => key y == key x)).length < n := by
        have := (List.dropWhile_sublist (l := rest) (fun y => key y == key x)).length_le
        simp only [List.length_cons] at hn
        omega
      rw [ih _ hlt _ rfl]
      simp [List.takeWhile_append_dropWhile]

theorem group_by_mem (key : TempoEvent → Nat) (l : List TempoEvent)
    (kg : Nat × List TempoEvent) (hm : kg ∈ group_by key l) :
    kg.2 ≠ [] ∧ ∀ e ∈ kg.2, key e = kg.1 ∧ e ∈ l := by
  revert kg hm
  suffices h : ∀ (n : Nat) (l : List TempoEvent), l.length = n →
      ∀ kg ∈ group_by key l, kg.2 ≠ [] ∧ ∀ e ∈ kg.2, key e = kg.1 ∧ e ∈ l by
    exact h l.length l rfl
  intro n
  induction n using Nat.strong_induction_on with
  | _ n ih =>
    intro l hn kg hm
    cases l with
    | nil => simp [group_by] at hm
    | cons x rest =>
      rw [group_by] at hm
      rcases List.mem_cons.mp hm with rfl | hm
      · refine ⟨by simp, ?_⟩
        intro e he
        rcases List.mem_cons.mp he with rfl | he
        · exact ⟨rfl, by simp⟩
        · have hp := List.mem_takeWhile_imp he
          refine ⟨by simpa using hp, ?_⟩
          exact List.mem_cons_of_mem x ((List.takeWhile_sublist _).subset he)
      · have hlt : (rest.dropWhile (fun y => key y == key x)).length < n := by
          have := (List.dropWhile_sublist (l := rest) (fun y => key y == key x)).length_le
          simp only [List.length_cons] at hn
          omega
        have hrec := ih _ hlt _ rfl kg hm
        refine ⟨hrec.1, fun e he => ⟨(hrec.2 e he).1, ?_⟩⟩
        exact List.mem_cons_of_mem x ((List.dropWhile_sublist _).subset (hrec.2 e he).2)

theorem group_by_chain (key : TempoEvent → Nat) (l : List TempoEvent) :
    List.Chain' (fun a b => a.1 ≠ b.1) (group_by key l) := by
  suffices h : ∀ (n : Nat) (l : List TempoEvent), l.length = n →
      List.Chain' (fun (a b : Nat × List TempoEvent) => a.1 ≠ b.1) (group_by key l) by
    exact h l.length l rfl
  intro n
  induction n using Nat.strong_induction_on with
  | _ n ih =>
    intro l hn
    cases l with
    | nil => simp [group_by]
    | cons x rest =>
      rw [group_by]
      have hlt : (rest.dropWhile (fun y => key y == key x)).length < n := by
        have := (List.dropWhile_sublist (l := rest) (fun y => key y == key x)).length_le
        simp only [List.length_cons] at hn
        omega
      apply List.chain'_cons'.mpr
      refine ⟨?_, ih _ hlt _ rfl⟩
      intro kg hkg
      cases hd : rest.dropWhile (fun y => key y == key x) with
      | nil => rw [hd] at hkg; simp [group_by] at hkg
      | cons y ys =>
        rw [hd] at hkg
        rw [group_by] at hkg
        rw [List.head?_cons, Option.mem_def, Option.some_inj] at hkg
        have hy : ¬ (key y == key x) = true := by
          have := List.head?_dropWhile_not (fun y => key y == key x) rest
          rw [hd] at this
          simp only [List.head?_cons] at this
          simpa using this
        rw [← hkg]
        simp only [ne_eq]
        intro hc
        apply hy
        have hxy : key x = key y := hc
        simp [hxy]

theorem length_le_flatMap_of_mem :
    ∀ (groups : List (Nat × List TempoEvent)) (kg : Nat × List TempoEvent), kg ∈ groups →
      kg.2.length ≤ (groups.flatMap Prod.snd).length := by
  intro groups
  induction groups with
  | nil => intro kg h; simp at h
  | cons g groups ih =>
    intro kg h
    simp only [List.flatMap_cons, List.length_append]
    rcases List.mem_cons.mp h with rfl | h
    · omega
    · have := ih kg h
      omega

theorem group_by_length_le (key : TempoEvent → Nat) (l : List TempoEvent)
    (kg : Nat × List TempoEvent) (hm : kg ∈ group_by key l) : kg.2.length ≤ l.length := by
  have h := length_le_flatMap_of_mem (group_by key l) kg hm
  rwa [group_by_flatten] at h

theorem decode_tempo_runs (groups : List (Nat × List TempoEvent)) :
    ∀ (g : List Nat),
      (∀ kg ∈ groups, kg.2 ≠ [] ∧ kg.2.length < 2 ^ 64 ∧
        ∀ e ∈ kg.2, tempoWF e ∧ tempo_event_kind e.kind = kg.1) →
      decode_tempo (tempo_runs_bytes groups ++ (varint_bytes 0 ++ g))
        = .ok (groups.flatMap Prod.snd) := by
  induction groups with
  | nil =>
    intro g _
    unfold decode_tempo
    simp only [tempo_runs_bytes, List.flatMap_nil, List.nil_append]
    rw [decode_varint_bytes 0 g (by norm_num)]
    dsimp only
    rw [decode_tempo_go.eq_def]
    simp
  | cons kg groups ih =>
    intro g hwf
    obtain ⟨hne, hlen, hev⟩ := hwf kg (by simp)
    have hcons : tempo_runs_bytes (kg :: groups)
        = varint_bytes kg.2.length
          ++ kg.1 :: (kg.2.flatMap tempo_event_bytes ++ tempo_runs_bytes groups) := by
      simp [tempo_runs_bytes, List.flatMap_cons]
    unfold decode_tempo
    rw [hcons]
    simp only [List.append_assoc, List.cons_append]
    rw [decode_varint_bytes _ _ hlen]
    dsimp only
    rw [decode_tempo_go_none_cons _ _ _ (fun h => hne (List.length_eq_zero.mp h))]
    rw [decode_tempo_go_run kg.2 kg.1 _ hne hev]
    have hihr := ih g (fun x hx => hwf x (List.mem_cons_of_mem _ hx))
    unfold decode_tempo at hihr
    cases hv : decode_varint (tempo_runs_bytes groups ++ (varint_bytes 0 ++ g)) with
    | error e =>
      rw [hv] at hihr
      simp at hihr
    | ok cr =>
      rcases cr with ⟨c, rest⟩
      rw [hv] at hihr
      dsimp only at hihr
      simp [hihr, List.flatMap_cons]

theorem tempo_event_kind_le (k : TempoEventKind) : tempo_event_kind k ≤ 10 := by
  cases k <;> simp [tempo_event_kind]

theorem tempo_event_bytes_lt_256 (event : TempoEvent) (hwf : tempoWF event) :
    ∀ b ∈ tempo_event_bytes event, b < 256 := by
  rcases event with ⟨row, kind⟩
  obtain ⟨hrow, hk⟩ := hwf
  simp only at hrow hk
  intro b hb
  simp only [tempo_event_bytes, List.mem_append] at hb
  rcases hb with hb | hb
  · exact u32leBytes_lt_256 _ _ hb
  · cases kind with
    | Bpm x => exact u64leBytes_lt_256 _ _ hb
    | Stop x => exact u64leBytes_lt_256 _ _ hb
    | Delay x => exact u64leBytes_lt_256 _ _ hb
    | Warp x => exact u32leBytes_lt_256 _ _ hb
    | TimeSignature a c =>
      simp only [List.mem_append] at hb
      rcases hb with hb | hb
      · exact u32leBytes_lt_256 _ _ hb
      · exact u32leBytes_lt_256 _ _ hb
    | Ticks x => exact u32leBytes_lt_256 _ _ hb
    | Combo c m =>
      simp only [List.mem_append] at hb
      rcases hb with hb | hb
      · exact u32leBytes_lt_256 _ _ hb
      · exact u32leBytes_lt_256 _ _ hb
    | Speed r d dit =>
      simp only [List.mem_append] at hb
      rcases hb with (hb | hb) | hb
      · exact u64leBytes_lt_256 _ _ hb
      · exact u64leBytes_lt_256 _ _ hb
      · exact u32leBytes_lt_256 _ _ hb
    | Scroll x => exact u64leBytes_lt_256 _ _ hb
    | FakeSegment x => exact u32leBytes_lt_256 _ _ hb
    | Label message =>
      simp only [List.mem_append] at hb
      rcases hb with hb | hb
      · exact varint_bytes_lt_256 _ _ hb
      · exact hk.2 b hb

theorem tempo_runs_bytes_lt_256 (groups : List (Nat × List TempoEvent))
    (h : ∀ kg ∈ groups, kg.1 < 256 ∧ ∀ e ∈ kg.2, tempoWF e) :
    ∀ b ∈ tempo_runs_bytes groups, b < 256 := by
  intro b hb
  simp only [tempo_runs_bytes, List.mem_flatMap] at hb
  obtain ⟨kg, hkg, hb⟩ := hb
  simp only [List.mem_append, List.mem_cons] at hb
  rcases hb with hb | rfl | hb
  · exact varint_bytes_lt_256 _ _ hb
  · exact (h kg hkg).1
  · rw [List.mem_flatMap] at hb
    obtain ⟨e, he, hb⟩ := hb
    exact tempo_event_bytes_lt_256 e ((h kg hkg).2 e he) b hb

theorem tempo_roundtrip (events : List TempoEvent)
    (hwf : ∀ e ∈ events, tempoWF e) (hsorted : tempoSorted events = true)
    (hlen : events.length < 2 ^ 64) :
    encode_tempo [] events
      = (.ok (), tempoSig
          ++ ((writeBytes ⟨[], []⟩
              (tempo_runs_bytes (group_by (fun ev => tempo_event_kind ev.kind) events)
                ++ varint_bytes 0)).flush_buffer).writer)
    ∧ decode (tempoSig
        ++ ((writeBytes ⟨[], []⟩
            (tempo_runs_bytes (group_by (fun ev => tempo_event_kind ev.kind) events)
              ++ varint_bytes 0)).flush_buffer).writer)
      = .ok (.TempoEvents events) := by
  have hgroups : ∀ kg ∈ group_by (fun ev => tempo_event_kind ev.kind) events,
      kg.2 ≠ [] ∧ kg.2.length < 2 ^ 64 ∧
        ∀ e ∈ kg.2, tempoWF e ∧ tempo_event_kind e.kind = kg.1 := by
    intro kg hkg
    obtain ⟨hne, hmem⟩ := group_by_mem _ events kg hkg
    refine ⟨hne, ?_, ?_⟩
    · have := group_by_length_le _ events kg hkg
      omega
    · intro e he
      exact ⟨hwf e (hmem e he).2, (hmem e he).1⟩
  constructor
  · simpa using encode_tempo_eq [] events hsorted
  · unfold decode
    rw [stripSignature_notes_tempo, stripSignature_self_append]
    dsimp only
    have hwf256 : ∀ b ∈ tempo_runs_bytes (group_by (fun ev => tempo_event_kind ev.kind) events)
        ++ varint_bytes 0, b < 256 := by
      intro b hb
      rcases List.mem_append.mp hb with hb | hb
      · refine tempo_runs_bytes_lt_256 _ ?_ b hb
        intro kg hkg
        obtain ⟨hne, hmem⟩ := group_by_mem _ events kg hkg
        refine ⟨?_, fun e he => hwf e (hmem e he).2⟩
        rcases kg with ⟨k, grp⟩
        cases grp with
        | nil => exact absurd rfl hne
        | cons e grp =>
          have hk := (hmem e (by simp)).1
          simp only at hk
          have := tempo_event_kind_le e.kind
          omega
      · exact varint_bytes_lt_256 _ _ hb
    obtain ⟨g, hg⟩ := b85_roundtrip _ hwf256
    rw [hg]
    have hdt := decode_tempo_runs (group_by (fun ev => tempo_event_kind ev.kind) events) g hgroups
    rw [group_by_flatten] at hdt
    simp [List.append_assoc, hdt]

/-! ### Helper lemmas for the claim theorems -/

theorem varint_bytes_small (n : Nat) (h : n < 128) : varint_bytes n = [n] := by
  rw [varint_bytes]
  have hs : n >>> 7 = 0 := by
    rw [Nat.shiftRight_eq_div_pow]
    omega
  rw [hs]
  simp [and_127_eq, Nat.mod_eq_of_lt h]

theorem varint_bytes_ne_nil (n : Nat) : varint_bytes n ≠ [] := by
  rw [varint_bytes]
  split <;> simp

theorem varint_bytes_dropLast_high (n : Nat) :
    ∀ b ∈ (varint_bytes n).dropLast, b &&& 128 ≠ 0 := by
  induction n using Nat.strong_induction_on with
  | _ n ih =>
    rw [varint_bytes]
    split
    · rename_i h
      rw [List.dropLast_cons_of_ne_nil (varint_bytes_ne_nil _)]
      intro b hb
      rcases List.mem_cons.mp hb with rfl | hb
      · have h127 : n &&& 127 < 128 := by rw [and_127_eq]; omega
        rw [lor_128_eq _ h127, and_128_eq]
        omega
      · refine ih (n >>> 7) ?_ b hb
        rw [Nat.shiftRight_eq_div_pow] at *
        omega
    · simp

theorem varint_bytes_getLast_low (n : Nat) :
    ∀ b, (varint_bytes n).getLast? = some b → b &&& 128 = 0 := by
  induction n using Nat.strong_induction_on with
  | _ n ih =>
    rw [varint_bytes]
    split
    · rename_i h
      intro b hb
      obtain ⟨c, cs, hcc⟩ := List.exists_cons_of_ne_nil (varint_bytes_ne_nil (n >>> 7))
      rw [hcc, List.getLast?_cons_cons, ← hcc] at hb
      refine ih (n >>> 7) ?_ b hb
      rw [Nat.shiftRight_eq_div_pow] at *
      omega
    · intro b hb
      simp only [List.getLast?_singleton, Option.some_inj] at hb
      subst hb
      rw [and_127_eq, and_128_eq]
      omega

theorem decode_varint_all_continuation : ∀ (data : List Nat),
    (∀ b ∈ data, b &&& 128 ≠ 0) → decode_varint data = .error .UnexpectedEof := by
  suffices h : ∀ (data : List Nat), (∀ b ∈ data, b &&& 128 ≠ 0) →
      ∀ (i acc : Nat), decode_varint_go data i acc = .error .UnexpectedEof by
    intro data hd
    exact h data hd 0 0
  intro data
  induction data with
  | nil => intro _ i acc; rfl
  | cons b rest ih =>
    intro hd i acc
    simp only [decode_varint_go]
    rw [if_neg (hd b (by simp))]
    exact ih (fun x hx => hd x (by simp [hx])) _ _

theorem decode_u32_short (data : List Nat) (h : data.length < 4) :
    decode_u32 data = .error .UnexpectedEof := by
  unfold decode_u32
  split
  · rename_i b0 b1 b2 b3 rest
    simp only [List.length_cons] at h
    exact absurd h (by omega)
  · rfl

theorem decode_f64_short (data : List Nat) (h : data.length < 8) :
    decode_f64 data = .error .UnexpectedEof := by
  unfold decode_f64
  split
  · rename_i b0 b1 b2 b3 b4 b5 b6 b7 rest
    simp only [List.length_cons] at h
    exact absurd h (by omega)
  · rfl

theorem takeBytes_short : ∀ (n : Nat) (data : List Nat), data.length < n →
    takeBytes n data = .error .UnexpectedEof := by
  intro n
  induction n with
  | zero => intro data h; omega
  | succ n ih =>
    intro data h
    cases data with
    | nil => rfl
    | cons b data =>
      simp only [takeBytes]
      rw [ih data (by simp only [List.length_cons] at h; omega)]

theorem pairLe_nat (a b : Nat × Nat) :
    pairLe natPcmp a b = true ↔ a.1 < b.1 ∨ (a.1 = b.1 ∧ a.2 ≤ b.2) := by
  unfold pairLe natPcmp
  rcases h : compare a.1 b.1 with _ | _ | _
  · simp [Nat.compare_eq_lt.mp h]
  · have heq := Nat.compare_eq_eq.mp h
    simp [heq]
  · have hgt := Nat.compare_eq_gt.mp h
    simp
    omega

theorem notesSorted_iff_chain (pcmp : Nat → Nat → Option Ordering) :
    ∀ notes : List Note, notesSorted pcmp notes = true ↔
      List.Chain' (fun a b : Note =>
        pairLe pcmp (a.pos, a.column) (b.pos, b.column) = true) notes := by
  intro notes
  induction notes with
  | nil => simp [notesSorted]
  | cons a rest ih =>
    cases rest with
    | nil => simp [notesSorted]
    | cons b rest2 =>
      rw [notesSorted, List.chain'_cons, ← ih]
      simp [Bool.and_eq_true]

theorem notesSorted_nat_iff (notes : List Note) :
    notesSorted natPcmp notes = true ↔ List.Chain' (fun a b : Note =>
      a.pos < b.pos ∨ (a.pos = b.pos ∧ a.column ≤ b.column)) notes := by
  rw [notesSorted_iff_chain]
  constructor
  · exact fun h => List.Chain'.imp (fun a b hab => (pairLe_nat _ _).mp hab) h
  · exact fun h => List.Chain'.imp (fun a b hab => (pairLe_nat _ _).mpr hab) h

theorem tempoSorted_iff_chain : ∀ events : List TempoEvent,
    tempoSorted events = true ↔ List.Chain' (fun a b : TempoEvent =>
      tempo_event_kind a.kind < tempo_event_kind b.kind
        ∨ (tempo_event_kind a.kind = tempo_event_kind b.kind ∧ a.row ≤ b.row)) events := by
  intro events
  induction events with
  | nil => simp [tempoSorted]
  | cons a rest ih =>
    cases rest with
    | nil => simp [tempoSorted]
    | cons b rest2 =>
      rw [tempoSorted, List.chain'_cons, ← ih]
      simp [Bool.and_eq_true]

/-! ### `NonTrivial` is never produced by any decoder -/

theorem decode_varint_ne_nontrivial (data : List Nat) :
    decode_varint data ≠ .error .NonTrivial := by
  suffices h : ∀ (data : List Nat) (i acc : Nat),
      decode_varint_go data i acc ≠ .error .NonTrivial from h data 0 0
  intro data
  induction data with
  | nil => intro i acc h; simp [decode_varint_go] at h
  | cons b rest ih =>
    intro i acc h
    simp only [decode_varint_go] at h
    split at h
    · simp at h
    · exact ih _ _ h

theorem decode_u32_ne_nontrivial (data : List Nat) :
    decode_u32 data ≠ .error .NonTrivial := by
  intro h
  unfold decode_u32 at h
  split at h <;> simp at h

theorem decode_f64_ne_nontrivial (data : List Nat) :
    decode_f64 data ≠ .error .NonTrivial := by
  intro h
  unfold decode_f64 at h
  split at h <;> simp at h

theorem takeBytes_ne_nontrivial : ∀ (n : Nat) (data : List Nat),
    takeBytes n data ≠ .error .NonTrivial := by
  intro n
  induction n with
  | zero => intro data h; simp [takeBytes] at h
  | succ n ih =>
    intro data h
    cases data with
    | nil => simp [takeBytes] at h
    | cons b data =>
      simp only [takeBytes] at h
      split at h
      · rename_i e heq
        simp only [Except.error.injEq] at h
        subst h
        exact ih data heq
      · simp at h

theorem decode_notes_go_ne_nontrivial
    (position_decode : List Nat → Except DecodeError (Nat × List Nat))
    (hpd : ∀ d, position_decode d ≠ .error .NonTrivial) :
    ∀ (n : Nat) (data : List Nat),
      decode_notes_go position_decode n data ≠ .error .NonTrivial := by
  intro n
  induction n with
  | zero => intro data h; simp [decode_notes_go] at h
  | succ n ih =>
    intro data h
    cases data with
    | nil => simp [decode_notes_go] at h
    | cons fb data =>
      simp only [decode_notes_go] at h
      split at h
      · rename_i e heq
        simp only [Except.error.injEq] at h
        subst h
        exact hpd _ heq
      · rename_i pr pos d2 heq
        split at h
        · split at h
          · rename_i e heq2
            simp only [Except.error.injEq] at h
            subst h
            exact ih _ heq2
          · simp at h
        · split at h
          · rename_i e heq2
            simp only [Except.error.injEq] at h
            subst h
            exact hpd _ heq2
          · split at h
            · simp at h
            · split at h
              · rename_i e heq3
                simp only [Except.error.injEq] at h
                subst h
                split at heq3 <;> simp at heq3
              · split at h
                · rename_i e heq4
                  simp only [Except.error.injEq] at h
                  subst h
                  exact ih _ heq4
                · simp at h

theorem decode_notes_ne_nontrivial
    (position_decode : List Nat → Except DecodeError (Nat × List Nat))
    (hpd : ∀ d, position_decode d ≠ .error .NonTrivial) (data : List Nat) :
    decode_notes position_decode data ≠ .error .NonTrivial := by
  intro h
  unfold decode_notes at h
  split at h
  · rename_i e heq
    simp only [Except.error.injEq] at h
    subst h
    exact decode_varint_ne_nontrivial _ heq
  · exact decode_notes_go_ne_nontrivial position_decode hpd _ _ h

theorem decode_single_tempo_event_ne_nontrivial (kind : Nat) (data : List Nat) :
    (decode_single_tempo_event kind data).1 ≠ .error .NonTrivial := by
  intro h
  rcases hp : decode_single_tempo_event kind data with ⟨res, rest⟩
  rw [hp] at h
  have h2 : res = .error .NonTrivial := h
  subst h2
  unfold decode_single_tempo_event at hp
  split at hp
  · rename_i e hu
    simp only [Prod.mk.injEq, Except.error.injEq] at hp
    obtain ⟨rfl, -⟩ := hp
    exact decode_u32_ne_nontrivial data hu
  · rename_i pos d1 hu
    split at hp
    · split at hp
      · rename_i e hf
        simp only [Prod.mk.injEq, Except.error.injEq] at hp
        obtain ⟨rfl, -⟩ := hp
        exact decode_f64_ne_nontrivial _ hf
      · simp at hp
    · split at hp
      · rename_i e hf
        simp only [Prod.mk.injEq, Except.error.injEq] at hp
        obtain ⟨rfl, -⟩ := hp
        exact decode_f64_ne_nontrivial _ hf
      · simp at hp
    · split at hp
      · rename_i e hf
        simp only [Prod.mk.injEq, Except.error.injEq] at hp
        obtain ⟨rfl, -⟩ := hp
        exact decode_f64_ne_nontrivial _ hf
      · simp at hp
    · split at hp
      · rename_i e hf
        simp only [Prod.mk.injEq, Except.error.injEq] at hp
        obtain ⟨rfl, -⟩ := hp
        exact decode_u32_ne_nontrivial _ hf
      · simp at hp
    · split at hp
      · rename_i e hf
        simp only [Prod.mk.injEq, Except.error.injEq] at hp
        obtain ⟨rfl, -⟩ := hp
        exact decode_u32_ne_nontrivial _ hf
      · split at hp
        · rename_i e hg
          simp only [Prod.mk.injEq, Except.error.injEq] at hp
          obtain ⟨rfl, -⟩ := hp
          exact decode_u32_ne_nontrivial _ hg
        · simp at hp
    · split at hp
      · rename_i e hf
        simp only [Prod.mk.injEq, Except.error.injEq] at hp
        obtain ⟨rfl, -⟩ := hp
        exact decode_u32_ne_nontrivial _ hf
      · simp at hp
    · split at hp
      · rename_i e hf
        simp only [Prod.mk.injEq, Except.error.injEq] at hp
        obtain ⟨rfl, -⟩ := hp
        exact decode_u32_ne_nontrivial _ hf
      · split at hp
        · rename_i e hg
          simp only [Prod.mk.injEq, Except.error.injEq] at hp
          obtain ⟨rfl, -⟩ := hp
          exact decode_u32_ne_nontrivial _ hg
        · simp at hp
    · split at hp
      · rename_i e hf
        simp only [Prod.mk.injEq, Except.error.injEq] at hp
        obtain ⟨rfl, -⟩ := hp
        exact decode_f64_ne_nontrivial _ hf
      · split at hp
        · rename_i e hg
          simp only [Prod.mk.injEq, Except.error.injEq] at hp
          obtain ⟨rfl, -⟩ := hp
          exact decode_f64_ne_nontrivial _ hg
        · split at hp
          · rename_i e hb
            simp only [Prod.mk.injEq, Except.error.injEq] at hp
            obtain ⟨rfl, -⟩ := hp
            exact decode_u32_ne_nontrivial _ hb
          · simp at hp
    · split at hp
      · rename_i e hf
        simp only [Prod.mk.injEq, Except.error.injEq] at hp
        obtain ⟨rfl, -⟩ := hp
        exact decode_f64_ne_nontrivial _ hf
      · simp at hp
    · split at hp
      · rename_i e hf
        simp only [Prod.mk.injEq, Except.error.injEq] at hp
        obtain ⟨rfl, -⟩ := hp
        exact decode_u32_ne_nontrivial _ hf
      · simp at hp
    · split at hp
      · rename_i e hv
        simp only [Prod.mk.injEq, Except.error.injEq] at hp
        obtain ⟨rfl, -⟩ := hp
        exact decode_varint_ne_nontrivial _ hv
      · split at hp
        · rename_i e ht
          simp only [Prod.mk.injEq, Except.error.injEq] at hp
          obtain ⟨rfl, -⟩ := hp
          exact takeBytes_ne_nontrivial _ _ ht
        · simp at hp
    · simp at hp

theorem decode_single_tempo_event_snd_le (kind : Nat) (data : List Nat) :
    (decode_single_tempo_event kind data).2.length ≤ data.length := by
  unfold decode_single_tempo_event
  split
  · simp
  · rename_i pos d1 hu
    have l1 := decode_u32_length hu
    split
    · split
      · simp
      · rename_i v d2 hf
        have := decode_f64_length hf
        simp only
        omega
    · split
      · simp
      · rename_i v d2 hf
        have := decode_f64_length hf
        simp only
        omega
    · split
      · simp
      · rename_i v d2 hf
        have := decode_f64_length hf
        simp only
        omega
    · split
      · simp
      · rename_i v d2 hf
        have := decode_u32_length hf
        simp only
        omega
    · split
      · simp
      · rename_i v d2 hf
        split
        · simp
        · rename_i w d3 hg
          have := decode_u32_length hf
          have := decode_u32_length hg
          simp only
          omega
    · split
      · simp
      · rename_i v d2 hf
        have := decode_u32_length hf
        simp only
        omega
    · split
      · simp
      · rename_i v d2 hf
        split
        · simp
        · rename_i w d3 hg
          have := decode_u32_length hf
          have := decode_u32_length hg
          simp only
          omega
    · split
      · simp
      · rename_i v d2 hf
        split
        · simp
        · rename_i w d3 hg
          split
          · simp
          · rename_i x d4 hx
            have := decode_f64_length hf
            have := decode_f64_length hg
            have := decode_u32_length hx
            simp only
            omega
    · split
      · simp
      · rename_i v d2 hf
        have := decode_f64_length hf
        simp only
        omega
    · split
      · simp
      · rename_i v d2 hf
        have := decode_u32_length hf
        simp only
        omega
    · split
      · simp
      · rename_i len d2 hv
        split
        · simp
        · rename_i msg d3 ht
          have h1 := decode_varint_length hv
          have h2 := takeBytes_length ht
          simp only
          omega
    · simp only
      omega

theorem decode_tempo_go_some_ne (count k : Nat) (d : List Nat) (hc : ¬ count = 0)
    (hrec : ∀ (c : Nat) (kindOpt : Option Nat) (d2 : List Nat), d2.length < d.length →
      decode_tempo_go c kindOpt d2 ≠ .error .NonTrivial) :
    decode_tempo_go count (some k) d ≠ .error .NonTrivial := by
  intro h
  rw [decode_tempo_go_some _ _ _ hc] at h
  split at h
  · split at h
    · rename_i e hv
      simp only [Except.error.injEq] at h
      subst h
      exact decode_varint_ne_nontrivial _ hv
    · rename_i cr c d3 hv
      split at h
      · rename_i e hev
        simp only [Except.error.injEq] at h
        subst h
        exact decode_single_tempo_event_ne_nontrivial k d hev
      · rename_i event hev
        split at h
        · rename_i e hgo
          simp only [Except.error.injEq] at h
          subst h
          have h1 := decode_single_tempo_event_snd_le k d
          have h2 := decode_varint_length hv
          exact hrec _ _ _ (by omega) hgo
        · simp at h
  · split at h
    · rename_i e hev
      simp only [Except.error.injEq] at h
      subst h
      exact decode_single_tempo_event_ne_nontrivial k d hev
    · rename_i event hev
      split at h
      · rename_i e hgo
        simp only [Except.error.injEq] at h
        subst h
        have hp : decode_single_tempo_event k d
            = (.ok event, (decode_single_tempo_event k d).2) := by
          rw [← hev]
        have h2 := decode_single_tempo_event_length hp
        exact hrec _ _ _ h2 hgo
      · simp at h

theorem decode_tempo_go_ne_nontrivial : ∀ (n : Nat) (data : List Nat), data.length = n →
    ∀ (count : Nat) (kindOpt : Option Nat),
      decode_tempo_go count kindOpt data ≠ .error .NonTrivial := by
  intro n
  induction n using Nat.strong_induction_on with
  | _ n ih =>
    intro data hlen count kindOpt h
    by_cases hc : count = 0
    · rw [decode_tempo_go.eq_def] at h
      rw [if_pos hc] at h
      simp at h
    · cases kindOpt with
      | none =>
        cases data with
        | nil =>
          rw [decode_tempo_go.eq_def] at h
          rw [if_neg hc] at h
          simp at h
        | cons kd d =>
          rw [decode_tempo_go_none_cons _ _ _ hc] at h
          refine decode_tempo_go_some_ne count kd d hc ?_ h
          intro c ko d2 hlt
          refine ih d2.length ?_ d2 rfl c ko
          simp only [List.length_cons] at hlen
          omega
      | some k =>
        refine decode_tempo_go_some_ne count k data hc ?_ h
        intro c ko d2 hlt
        exact ih d2.length (by omega) d2 rfl c ko

theorem decode_tempo_ne_nontrivial (data : List Nat) :
    decode_tempo data ≠ .error .NonTrivial := by
  intro h
  unfold decode_tempo at h
  split at h
  · rename_i e hv
    simp only [Except.error.injEq] at h
    subst h
    exact decode_varint_ne_nontrivial _ hv
  · rename_i cr c d hv
    exact decode_tempo_go_ne_nontrivial d.length d rfl c none h

/-! ### The claims -/

/-- C1: for every in-range note list (columns in `0..=127`, positions in the
machine domain) that is non-decreasing by `(pos, column)`, row-based
(resp. time-based) encoding succeeds and decoding the produced text yields
exactly the original notes — positions, columns and kinds; moreover the
Mine/Lift/Fake wire records repeat the start position in place of an end
position, and decoding reconstructs the kind without an end field. -/
theorem C1_notes_roundtrip (notes : List Note)
    (hwf : ∀ x ∈ notes, noteWF (fun p => p < 2 ^ 64) x)
    (hlen : notes.length < 2 ^ 64) :
    (notesSorted natPcmp notes = true →
      ∃ text, encode_row_based_notes [] notes = (.ok (), text)
        ∧ decode text = .ok (.RowBasedNotes notes))
    ∧ (notesSorted f64Pcmp notes = true →
      ∃ text, encode_time_based_notes [] notes = (.ok (), text)
        ∧ decode text = .ok (.TimeBasedNotes notes))
    ∧ (∀ (position_bytes : Nat → List Nat) (note : Note),
        note.kind = .Mine ∨ note.kind = .Lift ∨ note.kind = .Fake →
        ∃ tag, note_bytes position_bytes note
          = (note.column ||| 128)
            :: (position_bytes note.pos ++ position_bytes note.pos ++ [tag])) := by
  refine ⟨?_, ?_, ?_⟩
  · intro hs
    obtain ⟨he, hd⟩ := row_notes_roundtrip notes hwf hs hlen
    exact ⟨_, he, hd⟩
  · intro hs
    obtain ⟨he, hd⟩ := time_notes_roundtrip notes hwf hs hlen
    exact ⟨_, he, hd⟩
  · intro pb note hk
    rcases note with ⟨pos, col, kind⟩
    simp only at hk
    rcases hk with rfl | rfl | rfl
    · exact ⟨1, rfl⟩
    · exact ⟨3, rfl⟩
    · exact ⟨4, rfl⟩

theorem C1_notes_roundtrip_witness :
    (∀ x ∈ ([⟨0, 0, .Tap⟩, ⟨5, 1, .Mine⟩] : List Note), noteWF (fun p => p < 2 ^ 64) x)
    ∧ ([⟨0, 0, .Tap⟩, ⟨5, 1, .Mine⟩] : List Note).length < 2 ^ 64
    ∧ (notesSorted natPcmp [⟨0, 0, .Tap⟩, ⟨5, 1, .Mine⟩] = true →
        ∃ text, encode_row_based_notes [] [⟨0, 0, .Tap⟩, ⟨5, 1, .Mine⟩] = (.ok (), text)
          ∧ decode text = .ok (.RowBasedNotes [⟨0, 0, .Tap⟩, ⟨5, 1, .Mine⟩])) := by
  have hwf : ∀ x ∈ ([⟨0, 0, .Tap⟩, ⟨5, 1, .Mine⟩] : List Note),
      noteWF (fun p => p < 2 ^ 64) x := by
    intro x hx
    rcases List.mem_cons.mp hx with rfl | hx
    · exact ⟨by norm_num, by norm_num, trivial⟩
    · rcases List.mem_singleton.mp hx with rfl
      exact ⟨by norm_num, by norm_num, trivial⟩
  have hlen : ([⟨0, 0, .Tap⟩, ⟨5, 1, .Mine⟩] : List Note).length < 2 ^ 64 := by norm_num
  exact ⟨hwf, hlen, (C1_notes_roundtrip _ hwf hlen).1⟩

/-- C3: inputs truncated mid-field fail with `UnexpectedEof`: a varint all of
whose bytes have the continuation bit set, a `u32` or `f64` with fewer bytes
than its width, a note record cut off before (or inside) its position bytes,
a `Label` message with fewer bytes than its declared length (also through
`decode_single_tempo_event`), and a notes signature with an empty body. -/
theorem C3_truncated_eof :
    (∀ data : List Nat, (∀ b ∈ data, b &&& 128 ≠ 0) →
      decode_varint data = .error .UnexpectedEof)
    ∧ (∀ data : List Nat, data.length < 4 → decode_u32 data = .error .UnexpectedEof)
    ∧ (∀ data : List Nat, data.length < 8 → decode_f64 data = .error .UnexpectedEof)
    ∧ (∀ (position_decode : List Nat → Except DecodeError (Nat × List Nat)) (n : Nat),
        decode_notes_go position_decode (n + 1) [] = .error .UnexpectedEof)
    ∧ (∀ (n first_byte : Nat),
        decode_notes_go decode_varint (n + 1) [first_byte] = .error .UnexpectedEof)
    ∧ (∀ (msg_len : Nat) (data : List Nat), data.length < msg_len →
        takeBytes msg_len data = .error .UnexpectedEof)
    ∧ (∀ (row msg_len : Nat) (data : List Nat), row < 2 ^ 32 → msg_len < 2 ^ 64 →
        data.length < msg_len →
        (decode_single_tempo_event 10 (u32leBytes row ++ (varint_bytes msg_len ++ data))).1
          = .error .UnexpectedEof)
    ∧ decode notesSig = .error .UnexpectedEof := by
  refine ⟨decode_varint_all_continuation, decode_u32_short, decode_f64_short, ?_, ?_,
    takeBytes_short, ?_, by decide⟩
  · intro pd n
    simp [decode_notes_go]
  · intro n fb
    simp [decode_notes_go, decode_varint, decode_varint_go]
  · intro row msg_len data hrow hlen hshort
    simp [decode_single_tempo_event, decode_u32_u32le row _ hrow,
      decode_varint_bytes _ _ hlen, takeBytes_short _ _ hshort]

theorem C3_truncated_eof_witness :
    (∀ b ∈ ([129, 255] : List Nat), b &&& 128 ≠ 0)
    ∧ ([1, 2, 3] : List Nat).length < 4
    ∧ ([0, 1, 2, 3, 4, 5, 6] : List Nat).length < 8
    ∧ ([9] : List Nat).length < 3
    ∧ decode_varint [129, 255] = .error .UnexpectedEof
    ∧ decode_u32 [1, 2, 3] = .error .UnexpectedEof
    ∧ decode_f64 [0, 1, 2, 3, 4, 5, 6] = .error .UnexpectedEof
    ∧ decode_notes_go decode_varint 1 [] = .error .UnexpectedEof
    ∧ decode_notes_go decode_varint 1 [130] = .error .UnexpectedEof
    ∧ takeBytes 3 [9] = .error .UnexpectedEof
    ∧ (decode_single_tempo_event 10 (u32leBytes 0 ++ (varint_bytes 3 ++ [9]))).1
        = .error .UnexpectedEof := by
  obtain ⟨h1, h2, h3, h4, h5, h6, h7, h8⟩ := C3_truncated_eof
  exact ⟨by decide, by decide, by decide, by decide,
    h1 _ (by decide), h2 _ (by decide), h3 _ (by decide), h4 decode_varint 0, h5 0 130,
    h6 3 [9] (by decide), h7 0 3 [9] (by norm_num) (by norm_num) (by decide)⟩

/-- C4 (counterexample): an input carrying the notes signature whose body
begins with the nonzero marker byte decodes successfully as (empty)
time-based notes — `decode` does not report `NonTrivial` on it. -/
theorem C4_nontrivial_counterexample :
    decode (notesSig ++ strBytes "!<<*\"") = .ok (.TimeBasedNotes []) := by
  decide

/-- C4 (amended): `DecodeError.NonTrivial` is declared but `decode` never
returns it, on any input whatsoever; a nonzero leading body byte in a
notes-signature input is read as the time-based flag instead. -/
theorem C4_nontrivial_never (data : List Nat) :
    decode data ≠ .error .NonTrivial := by
  intro h
  unfold decode at h
  split at h
  · split at h
    · simp at h
    · split at h
      · split at h
        · rename_i e hd
          simp only [Except.error.injEq] at h
          subst h
          exact decode_notes_ne_nontrivial decode_f64 decode_f64_ne_nontrivial _ hd
        · simp at h
      · split at h
        · rename_i e hd
          simp only [Except.error.injEq] at h
          subst h
          exact decode_notes_ne_nontrivial decode_varint decode_varint_ne_nontrivial _ hd
        · simp at h
  · split at h
    · split at h
      · rename_i e hd
        simp only [Except.error.injEq] at h
        subst h
        exact decode_tempo_ne_nontrivial _ hd
      · simp at h
    · simp at h

theorem C4_nontrivial_never_witness :
    (decode (notesSig ++ strBytes "!<<*\"") = .error .NonTrivial) = False :=
  eq_false (C4_nontrivial_never (notesSig ++ strBytes "!<<*\""))

/-- C5: encoding the four-tap example list produces exactly the documented
text, and decoding that literal text returns exactly those four notes as
row-based notes. -/
theorem C5_example_roundtrip :
    encode_row_based_notes []
        [⟨0, 0, .Tap⟩, ⟨12, 1, .Tap⟩, ⟨24, 2, .Tap⟩, ⟨36, 3, .Tap⟩]
      = (.ok (), strBytes "ArrowVortex:notes:!!E9%!=T#H\"!d")
    ∧ decode (strBytes "ArrowVortex:notes:!!E9%!=T#H\"!d")
      = .ok (.RowBasedNotes [⟨0, 0, .Tap⟩, ⟨12, 1, .Tap⟩, ⟨24, 2, .Tap⟩, ⟨36, 3, .Tap⟩]) := by
  constructor
  · have hwf : ∀ x ∈ ([⟨0, 0, .Tap⟩, ⟨12, 1, .Tap⟩, ⟨24, 2, .Tap⟩, ⟨36, 3, .Tap⟩] : List Note),
        noteWF (fun p => p < 2 ^ 64) x := by
      intro x hx
      rcases List.mem_cons.mp hx with rfl | hx
      · exact ⟨by norm_num, by norm_num, trivial⟩
      · rcases List.mem_cons.mp hx with rfl | hx
        · exact ⟨by norm_num, by norm_num, trivial⟩
        · rcases List.mem_cons.mp hx with rfl | hx
          · exact ⟨by norm_num, by norm_num, trivial⟩
          · rcases List.mem_singleton.mp hx with rfl
            exact ⟨by norm_num, by norm_num, trivial⟩
    have h := (row_notes_roundtrip _ hwf (by decide) (by norm_num)).1
    have hb : notes_body_bytes varint_bytes false
        [⟨0, 0, .Tap⟩, ⟨12, 1, .Tap⟩, ⟨24, 2, .Tap⟩, ⟨36, 3, .Tap⟩]
        = [0, 4, 0, 0, 1, 12, 2, 24, 3, 36] := by
      simp [notes_body_bytes, note_bytes, varint_bytes_small, and_127_eq]
    rw [hb] at h
    rw [h]
    decide
  · decide

/-- C7: the base85 layer encodes a full all-zero 4-byte group as the single
character `z` (code 122); decoding `"z"` yields the four zero bytes, and
decoding `"!!!!!"` yields the same four zero bytes as `"z"`. -/
theorem C7_base85_zero_group :
    (Base85Encoder.write ⟨[0, 0, 0], []⟩ 0).writer = [122]
    ∧ writeBytes ⟨[], []⟩ [0, 0, 0, 0] = ⟨[], [122]⟩
    ∧ decode_dwords_from_base85 [122] = [0, 0, 0, 0]
    ∧ decode_dwords_from_base85 (strBytes "!!!!!") = [0, 0, 0, 0]
    ∧ decode_dwords_from_base85 (strBytes "!!!!!") = decode_dwords_from_base85 [122] := by
  decide

/-- C8: LEB128 varints: for every `u64` value the encoder writes
`varint_bytes` of it and decoding those bytes returns the value exactly;
zero encodes as the single byte `0x00`; every byte except the last carries
the continuation bit and the last byte does not. -/
theorem C8_varint_roundtrip (v : Nat) (hv : v < 2 ^ 64) :
    (∀ w : Base85Encoder, encode_varint w v = writeBytes w (varint_bytes v))
    ∧ decode_varint (varint_bytes v) = .ok (v, [])
    ∧ varint_bytes 0 = [0]
    ∧ (∀ b ∈ (varint_bytes v).dropLast, b &&& 128 ≠ 0)
    ∧ (∀ b, (varint_bytes v).getLast? = some b → b &&& 128 = 0) := by
  refine ⟨fun w => encode_varint_eq_writeBytes v w, ?_, varint_bytes_zero,
    varint_bytes_dropLast_high v, varint_bytes_getLast_low v⟩
  have h := decode_varint_bytes v [] hv
  simpa using h

theorem C8_varint_roundtrip_witness :
    (300 : Nat) < 2 ^ 64
    ∧ ((∀ w : Base85Encoder, encode_varint w 300 = writeBytes w (varint_bytes 300))
      ∧ decode_varint (varint_bytes 300) = .ok (300, [])
      ∧ varint_bytes 0 = [0]
      ∧ (∀ b ∈ (varint_bytes 300).dropLast, b &&& 128 ≠ 0)
      ∧ (∀ b, (varint_bytes 300).getLast? = some b → b &&& 128 = 0)) :=
  ⟨by norm_num, C8_varint_roundtrip 300 (by norm_num)⟩

/-- C10: whenever one of the three encoders reports `NotSorted`, the sink is
returned unchanged — the sortedness check runs before the signature or any
body byte is written. -/
theorem C10_notsorted_writes_nothing (writer : List Nat) (notes : List Note)
    (events : List TempoEvent) :
    ((encode_row_based_notes writer notes).1 = .error .NotSorted →
      (encode_row_based_notes writer notes).2 = writer)
    ∧ ((encode_time_based_notes writer notes).1 = .error .NotSorted →
      (encode_time_based_notes writer notes).2 = writer)
    ∧ ((encode_tempo writer events).1 = .error .NotSorted →
      (encode_tempo writer events).2 = writer) := by
  refine ⟨?_, ?_, ?_⟩
  · by_cases hs : notesSorted natPcmp notes <;>
      simp [encode_row_based_notes, encode_notes, hs]
  · by_cases hs : notesSorted f64Pcmp notes <;>
      simp [encode_time_based_notes, encode_notes, hs]
  · by_cases hs : tempoSorted events <;> simp [encode_tempo, hs]

theorem C10_notsorted_writes_nothing_witness :
    (encode_row_based_notes [7] [⟨5, 0, .Tap⟩, ⟨3, 0, .Tap⟩]).1 = .error .NotSorted
    ∧ (encode_row_based_notes [7] [⟨5, 0, .Tap⟩, ⟨3, 0, .Tap⟩]).2 = [7]
    ∧ (encode_tempo [7] [⟨5, .Stop 0⟩, ⟨3, .Bpm 0⟩]).1 = .error .NotSorted
    ∧ (encode_tempo [7] [⟨5, .Stop 0⟩, ⟨3, .Bpm 0⟩]).2 = [7] := by
  have h := C10_notsorted_writes_nothing [7] [⟨5, 0, .Tap⟩, ⟨3, 0, .Tap⟩]
    [⟨5, .Stop 0⟩, ⟨3, .Bpm 0⟩]
  have h1 : (encode_row_based_notes [7] [⟨5, 0, .Tap⟩, ⟨3, 0, .Tap⟩]).1
      = .error .NotSorted := by decide
  have h3 : (encode_tempo [7] [⟨5, .Stop 0⟩, ⟨3, .Bpm 0⟩]).1 = .error .NotSorted := by decide
  exact ⟨h1, h.1 h1, h3, h.2.2 h3⟩

/-- C2: for every well-formed tempo event list that is non-decreasing by
`(kind-discriminant, row)`, `encode_tempo` writes the signature followed by
the base85 encoding of one run per `group_by`-group — a varint run length,
one kind tag byte, then each event as u32 row plus kind fields — terminated
by a zero-length run; the groups are exactly the maximal consecutive
constant-kind runs of the input (they concatenate back to it, each is
nonempty and constant-kind, and adjacent groups have different kinds); and
decoding the produced text returns exactly the original events in order. -/
theorem C2_tempo_runs_roundtrip (events : List TempoEvent)
    (hwf : ∀ e ∈ events, tempoWF e) (hsorted : tempoSorted events = true)
    (hlen : events.length < 2 ^ 64) :
    encode_tempo [] events
      = (.ok (), tempoSig
          ++ ((writeBytes ⟨[], []⟩
              (tempo_runs_bytes (group_by (fun ev => tempo_event_kind ev.kind) events)
                ++ varint_bytes 0)).flush_buffer).writer)
    ∧ (group_by (fun ev => tempo_event_kind ev.kind) events).flatMap Prod.snd = events
    ∧ (∀ kg ∈ group_by (fun ev => tempo_event_kind ev.kind) events,
        kg.2 ≠ [] ∧ ∀ e ∈ kg.2, tempo_event_kind e.kind = kg.1)
    ∧ List.Chain' (fun a b => a.1 ≠ b.1)
        (group_by (fun ev => tempo_event_kind ev.kind) events)
    ∧ decode (tempoSig
        ++ ((writeBytes ⟨[], []⟩
            (tempo_runs_bytes (group_by (fun ev => tempo_event_kind ev.kind) events)
              ++ varint_bytes 0)).flush_buffer).writer)
      = .ok (.TempoEvents events) := by
  obtain ⟨he, hd⟩ := tempo_roundtrip events hwf hsorted hlen
  refine ⟨he, group_by_flatten _ _, ?_, group_by_chain _ _, hd⟩
  intro kg hkg
  obtain ⟨hne, hmem⟩ := group_by_mem _ events kg hkg
  exact ⟨hne, fun e he2 => (hmem e he2).1⟩

theorem C2_tempo_runs_roundtrip_witness :
    (∀ e ∈ ([⟨10, .Bpm 1⟩, ⟨20, .Bpm 2⟩, ⟨5, .Stop 3⟩] : List TempoEvent), tempoWF e)
    ∧ tempoSorted [⟨10, .Bpm 1⟩, ⟨20, .Bpm 2⟩, ⟨5, .Stop 3⟩] = true
    ∧ ([⟨10, .Bpm 1⟩, ⟨20, .Bpm 2⟩, ⟨5, .Stop 3⟩] : List TempoEvent).length < 2 ^ 64
    ∧ decode (tempoSig
        ++ ((writeBytes ⟨[], []⟩
            (tempo_runs_bytes (group_by (fun ev => tempo_event_kind ev.kind)
                [⟨10, .Bpm 1⟩, ⟨20, .Bpm 2⟩, ⟨5, .Stop 3⟩])
              ++ varint_bytes 0)).flush_buffer).writer)
      = .ok (.TempoEvents [⟨10, .Bpm 1⟩, ⟨20, .Bpm 2⟩, ⟨5, .Stop 3⟩]) := by
  have hwf : ∀ e ∈ ([⟨10, .Bpm 1⟩, ⟨20, .Bpm 2⟩, ⟨5, .Stop 3⟩] : List TempoEvent),
      tempoWF e := by
    intro e he
    rcases List.mem_cons.mp he with rfl | he
    · exact ⟨by norm_num, by norm_num⟩
    · rcases List.mem_cons.mp he with rfl | he
      · exact ⟨by norm_num, by norm_num⟩
      · rcases List.mem_singleton.mp he with rfl
        exact ⟨by norm_num, by norm_num⟩
  exact ⟨hwf, by decide, by norm_num,
    (C2_tempo_runs_roundtrip _ hwf (by decide) (by norm_num)).2.2.2.2⟩

/-- C6: the note encoders fail with `NotSorted` exactly when the input is not
non-decreasing by `(pos, column)` — for row-based notes this is the plain
lexicographic order on `(u64, u8)`, for time-based notes the order induced by
the `f64` partial comparison — and `encode_tempo` fails with `NotSorted`
exactly when the events are not non-decreasing by `(kind-discriminant, row)`;
in particular `[(pos 5, col 0), (pos 3, col 0)]` is rejected. -/
theorem C6_notsorted_iff :
    (∀ (writer : List Nat) (notes : List Note),
      (encode_row_based_notes writer notes).1 = .error .NotSorted
        ↔ ¬ List.Chain' (fun a b : Note =>
            a.pos < b.pos ∨ (a.pos = b.pos ∧ a.column ≤ b.column)) notes)
    ∧ (∀ (writer : List Nat) (notes : List Note),
      (encode_time_based_notes writer notes).1 = .error .NotSorted
        ↔ ¬ List.Chain' (fun a b : Note =>
            pairLe f64Pcmp (a.pos, a.column) (b.pos, b.column) = true) notes)
    ∧ (∀ (writer : List Nat) (events : List TempoEvent),
      (encode_tempo writer events).1 = .error .NotSorted
        ↔ ¬ List.Chain' (fun a b : TempoEvent =>
            tempo_event_kind a.kind < tempo_event_kind b.kind
              ∨ (tempo_event_kind a.kind = tempo_event_kind b.kind ∧ a.row ≤ b.row)) events)
    ∧ (encode_row_based_notes [] [⟨5, 0, .Tap⟩, ⟨3, 0, .Tap⟩]).1 = .error .NotSorted := by
  refine ⟨?_, ?_, ?_, by decide⟩
  · intro w notes
    rw [← notesSorted_nat_iff]
    by_cases hs : notesSorted natPcmp notes <;>
      simp [encode_row_based_notes, encode_notes, hs]
  · intro w notes
    rw [← notesSorted_iff_chain]
    by_cases hs : notesSorted f64Pcmp notes <;>
      simp [encode_time_based_notes, encode_notes, hs]
  · intro w events
    rw [← tempoSorted_iff_chain]
    by_cases hs : tempoSorted events <;> simp [encode_tempo, hs]

/-- C9: an extended note record whose type tag lies outside `0..=4` fails
with `UnknownNoteType` carrying exactly that byte, and a tempo run whose kind
byte lies outside `0..=10` fails with `UnknownTempoEventType` carrying
exactly that byte; in particular tag `7` and kind `99`. -/
theorem C9_unknown_tags (t k : Nat) (ht : 5 ≤ t) (hk : 11 ≤ k) :
    (∀ (n first_byte pos end_pos : Nat) (rest : List Nat),
      first_byte &&& 128 ≠ 0 → pos < 2 ^ 64 → end_pos < 2 ^ 64 →
      decode_notes_go decode_varint (n + 1)
        (first_byte :: (varint_bytes pos ++ (varint_bytes end_pos ++ t :: rest)))
        = .error (.UnknownNoteType t))
    ∧ (∀ (row : Nat) (rest : List Nat), row < 2 ^ 32 →
      (decode_single_tempo_event k (u32leBytes row ++ rest)).1
        = .error (.UnknownTempoEventType k))
    ∧ decode_notes_go decode_varint 1 [128, 0, 0, 7] = .error (.UnknownNoteType 7)
    ∧ decode_tempo [1, 99, 0, 0, 0, 0, 0] = .error (.UnknownTempoEventType 99) := by
  obtain ⟨m, rfl⟩ : ∃ m, t = m + 5 := ⟨t - 5, by omega⟩
  obtain ⟨j, rfl⟩ : ∃ j, k = j + 11 := ⟨k - 11, by omega⟩
  refine ⟨?_, ?_, by decide, ?_⟩
  · intro n fb pos ep rest hfb hpos hep
    simp [decode_notes_go, decode_varint_bytes pos _ hpos, decode_varint_bytes ep _ hep, hfb]
  · intro row rest hrow
    simp [decode_single_tempo_event, decode_u32_u32le row _ hrow]
  · have h0 : decode_varint [1, 99, 0, 0, 0, 0, 0] = .ok (1, [99, 0, 0, 0, 0, 0]) := by
      decide
    have h1 : decode_single_tempo_event 99 [0, 0, 0, 0, 0]
        = (.error (.UnknownTempoEventType 99), [0]) := by decide
    have h2 : decode_varint [0] = .ok (0, []) := by decide
    unfold decode_tempo
    rw [h0]
    dsimp only
    rw [decode_tempo_go_none_cons _ _ _ (by norm_num),
      decode_tempo_go_some _ _ _ (by norm_num)]
    simp [h1, h2]

theorem C9_unknown_tags_witness :
    (5 : Nat) ≤ 7 ∧ (11 : Nat) ≤ 99
    ∧ decode_notes_go decode_varint 1 [128, 0, 0, 7] = .error (.UnknownNoteType 7)
    ∧ decode_tempo [1, 99, 0, 0, 0, 0, 0] = .error (.UnknownTempoEventType 99) :=
  ⟨by norm_num, by norm_num, (C9_unknown_tags 7 99 (by norm_num) (by norm_num)).2.2.1,
    (C9_unknown_tags 7 99 (by norm_num) (by norm_num)).2.2.2⟩
